import Mathlib

/-!
Shallow embedding of the Debt-Tower ledger and payment engine
(`src/stores/debtStore.ts`) and of the restack layout algorithm
(`src/components/PhysicsTower.vue`).

Numbers are modelled as rationals.  JavaScript object references into the
ledger are modelled by block-id indirection: the payment loop keeps the ids
of its candidate blocks and re-reads the live block from the ledger at each
iteration, which reproduces the aliasing of the source (a mutation performed
through one captured reference is visible through every other reference).
Mutation of the first matching array element is modelled by
first-occurrence update functions (`updateBlockInList`, `updateBlock`,
`updateDebt`).
-/

inductive BlockType where
  | principal
  | interest
deriving DecidableEq

structure Block where
  id : String
  debtId : String
  current : ℚ
  max : ℚ
  color : String
  type : BlockType
deriving DecidableEq

structure Debt where
  id : String
  name : String
  amount : ℚ
  paid : ℚ
  interestRate : ℚ
  color : String
  blocks : List Block
deriving DecidableEq

/-- The store state: the debt list plus the cumulative score counter. -/
structure GameState where
  debts : List Debt
  totalPaidGame : ℚ
deriving DecidableEq

/-- JavaScript `Array.prototype.find`, with a propositional predicate. -/
def findQ {α : Type*} (p : α → Prop) [DecidablePred p] : List α → Option α
  | [] => none
  | a :: l => if p a then some a else findQ p l

/-- JavaScript `Array.prototype.filter`, with a propositional predicate. -/
def filterQ {α : Type*} (p : α → Prop) [DecidablePred p] : List α → List α
  | [] => []
  | a :: l => if p a then a :: filterQ p l else filterQ p l

/-- Sum of a rational-valued attribute over a list. -/
def sumBy {α : Type*} (l : List α) (f : α → ℚ) : ℚ :=
  (l.map f).sum

def COLORS : List String :=
  ["#3B82F6", "#10B981", "#F59E0B", "#8B5CF6", "#EC4899", "#06B6D4", "#F97316"]

def BLOCK_VALUE : ℚ := 100

def totalDebt (debts : List Debt) : ℚ := sumBy debts Debt.amount

def totalPaid (debts : List Debt) : ℚ := sumBy debts Debt.paid

def remainingDebt (debts : List Debt) : ℚ := totalDebt debts - totalPaid debts

/-- The active-block view (`towerBlocks`): all blocks with `current > 0`,
in ledger iteration order (debt order, then block creation order). -/
def towerBlocks (debts : List Debt) : List Block :=
  debts.flatMap (fun d => filterQ (fun b => 0 < b.current) d.blocks)

/-- The block-decomposition loop of `addDebt`: repeatedly split off
`min remaining BLOCK_VALUE` until nothing remains.  The source writes this
`while` loop twice, once for the principal and once for the interest chunks. -/
def chunkSizes (remaining : ℚ) : List ℚ :=
  if h : 0 < remaining then
    min remaining BLOCK_VALUE :: chunkSizes (remaining - min remaining BLOCK_VALUE)
  else []
termination_by (⌈remaining / BLOCK_VALUE⌉₊ : ℕ)
decreasing_by
  rcases le_or_lt remaining BLOCK_VALUE with hle | hlt
  · have h0 : remaining - min remaining BLOCK_VALUE = 0 := by
      rw [min_eq_left hle]; ring
    rw [h0]
    simpa using Nat.ceil_pos.mpr (div_pos h (by norm_num [BLOCK_VALUE]))
  · have hmin : min remaining BLOCK_VALUE = BLOCK_VALUE := min_eq_right hlt.le
    rw [hmin]
    refine Nat.lt_ceil.mpr ?_
    have hy : (0:ℚ) ≤ (remaining - BLOCK_VALUE) / BLOCK_VALUE := by
      apply div_nonneg _ (by norm_num [BLOCK_VALUE])
      simp only [BLOCK_VALUE] at hlt ⊢
      linarith
    have hc := Nat.ceil_lt_add_one hy
    have heq : remaining / BLOCK_VALUE = (remaining - BLOCK_VALUE) / BLOCK_VALUE + 1 := by
      have hB : (BLOCK_VALUE : ℚ) ≠ 0 := by norm_num [BLOCK_VALUE]
      field_simp
    rw [heq]
    exact_mod_cast hc

/-- The principal-block generation loop: one block per chunk, ids built from
the owning debt's id and a running counter. -/
def principalBlocksFrom (debtId color : String) (k : ℕ) : List ℚ → List Block
  | [] => []
  | c :: rest =>
    { id := debtId ++ "-" ++ toString k, debtId := debtId, current := c, max := c,
      color := color, type := BlockType.principal } :: principalBlocksFrom debtId color (k + 1) rest

/-- The interest-block generation loop; interest blocks use the fixed dark-red
color and continue the running block counter. -/
def interestBlocksFrom (debtId : String) (k : ℕ) : List ℚ → List Block
  | [] => []
  | c :: rest =>
    { id := debtId ++ "-int-" ++ toString k, debtId := debtId, current := c, max := c,
      color := "#7f1d1d", type := BlockType.interest } :: interestBlocksFrom debtId (k + 1) rest

/-- All blocks of a freshly created debt: principal chunks of `amount`,
then interest chunks of `amount * (interestRate / 100)`. -/
def mkDebtBlocks (debtId color : String) (amount interestRate : ℚ) : List Block :=
  let pChunks := chunkSizes amount
  let iChunks := chunkSizes (amount * (interestRate / 100))
  principalBlocksFrom debtId color 0 pChunks ++
    interestBlocksFrom debtId pChunks.length iChunks

/-- The `addDebt(name, amount, interestRate)` action.  The fresh identifier the
source derives from `Date.now()` and `Math.random()` is passed in as `id`. -/
def addDebt (s : GameState) (id name : String) (amount interestRate : ℚ) : GameState :=
  let color := COLORS.getD (s.debts.length % COLORS.length) "#ccc"
  let newDebt : Debt :=
    { id := id, name := name, amount := amount, paid := 0,
      interestRate := interestRate, color := color,
      blocks := mkDebtBlocks id color amount interestRate }
  { s with debts := s.debts ++ [newDebt] }

/-- Look a block up by id across the ledger: first debt containing a block
with that id, first such block within it.  This is the indirection that
models the JavaScript block references held by the payment loop. -/
def findBlock? (debts : List Debt) (bid : String) : Option Block :=
  match debts with
  | [] => none
  | d :: rest =>
    match findQ (fun b => b.id = bid) d.blocks with
    | some b => some b
    | none => findBlock? rest bid

/-- Replace the first block with the given id (models `block.current -= damage`
through a captured reference). -/
def updateBlockInList (blocks : List Block) (bid : String) (f : Block → Block) : List Block :=
  match blocks with
  | [] => []
  | b :: rest => if b.id = bid then f b :: rest else b :: updateBlockInList rest bid f

/-- Apply `updateBlockInList` inside the first debt that owns a block with the
given id, leaving every other debt untouched. -/
def updateBlock (debts : List Debt) (bid : String) (f : Block → Block) : List Debt :=
  match debts with
  | [] => []
  | d :: rest =>
    match findQ (fun b => b.id = bid) d.blocks with
    | some _ => { d with blocks := updateBlockInList d.blocks bid f } :: rest
    | none => d :: updateBlock rest bid f

/-- Replace the first debt with the given id (models
`debts.value.find(d => d.id === block.debtId)` followed by mutation; when no
debt matches, the source's `if (parentDebt)` guard skips the mutation). -/
def updateDebt (debts : List Debt) (did : String) (f : Debt → Debt) : List Debt :=
  match debts with
  | [] => []
  | d :: rest => if d.id = did then f d :: rest else d :: updateDebt rest did f

/-- The damage loop of `reduceInterestBlocks`, walking the captured candidate
ids.  When the damaged block survives (`current` stays positive) the damage
equalled the whole remaining amount, so the source's `while` guard
`amountToRemove > 0` fails on the next test and the loop exits; the
translation returns directly in that branch. -/
def reduceLoop (blocks : List Block) (ids : List String) (amountToRemove : ℚ) : List Block :=
  match ids with
  | [] => blocks
  | bid :: rest =>
    if amountToRemove ≤ 0 then blocks
    else
      match findQ (fun b => b.id = bid) blocks with
      | none => blocks
      | some b =>
        let damage := min b.current amountToRemove
        let blocks1 := updateBlockInList blocks bid
          (fun x => { x with current := x.current - damage })
        if b.current - damage ≤ 0 then reduceLoop blocks1 rest (amountToRemove - damage)
        else blocks1

/-- The interest write-down: filter the debt's active interest blocks, sort
them ascending by `current` (the source's stable `Array.prototype.sort` with
comparator `a.current - b.current`), then run the damage loop. -/
def reduceInterestBlocks (debt : Debt) (amount : ℚ) : Debt :=
  let interestBlocks := List.insertionSort (fun a b => a.current ≤ b.current)
    (filterQ (fun b => b.type = BlockType.interest ∧ 0 < b.current) debt.blocks)
  { debt with blocks := reduceLoop debt.blocks (interestBlocks.map Block.id) amount }

/-- The parent-debt update performed when a principal block takes damage:
credit `paid` and, when positive, write down `damage * (rate / 100)` of
interest. -/
def creditPrincipal (d : Debt) (damage : ℚ) : Debt :=
  let d1 := { d with paid := d.paid + damage }
  let interestReduction := damage * (d1.interestRate / 100)
  if 0 < interestReduction then reduceInterestBlocks d1 interestReduction else d1

/-- One iteration of the `makePayment` damage loop on the head candidate id:
damage the block, and if it is a principal block credit its parent debt. -/
def payStep (debts : List Debt) (amountLeft : ℚ) (bid : String) : List Debt × ℚ :=
  match findBlock? debts bid with
  | none => (debts, amountLeft)
  | some block =>
    let damage := min block.current amountLeft
    let debts1 := updateBlock debts bid (fun b => { b with current := b.current - damage })
    let debts2 :=
      if block.type = BlockType.principal then
        updateDebt debts1 block.debtId (fun d => creditPrincipal d damage)
      else debts1
    (debts2, amountLeft - damage)

/-- The `makePayment` damage loop over the candidate ids.  As in `reduceLoop`,
when the damaged head block survives, the remaining amount is zero and the
`while` guard exits, so the translation returns directly. -/
def payLoop (debts : List Debt) (amountLeft : ℚ) (targets : List String) : List Debt × ℚ :=
  match targets with
  | [] => (debts, amountLeft)
  | bid :: rest =>
    if amountLeft ≤ 0 then (debts, amountLeft)
    else
      match findBlock? debts bid with
      | none => (debts, amountLeft)
      | some block =>
        let res := payStep debts amountLeft bid
        if block.current - min block.current amountLeft ≤ 0 then payLoop res.1 res.2 rest
        else res

inductive Strategy where
  | standard
  | random
  | targeted
deriving DecidableEq

/-- Candidate construction for the `standard` (hammer) strategy: one debt's
active blocks when a real debt id is given, otherwise all active blocks in
ledger order (the sentinel string "random" also means all debts). -/
def standardTargets (debts : List Debt) (targetDebtId : Option String) : List Block :=
  match targetDebtId with
  | some tid =>
    if tid ≠ "random" then
      match findQ (fun d => d.id = tid) debts with
      | some debt => filterQ (fun b => 0 < b.current) debt.blocks
      | none => []
    else debts.flatMap (fun d => filterQ (fun b => 0 < b.current) d.blocks)
  | none => debts.flatMap (fun d => filterQ (fun b => 0 < b.current) d.blocks)

/-- Candidate construction for the `random` strategy before shuffling. -/
def randomCandidates (debts : List Debt) (targetDebtId : Option String) : List Block :=
  match targetDebtId with
  | some tid =>
    match findQ (fun d => d.id = tid) debts with
    | some debt => filterQ (fun b => 0 < b.current) debt.blocks
    | none => []
  | none => debts.flatMap (fun d => filterQ (fun b => 0 < b.current) d.blocks)

/-- Target selection of `makePayment` (step 1 in the source).  The shuffle
performed by `sort(() => 0.5 - Math.random())` is an oracle parameter. -/
def selectTargets (debts : List Debt) (targetDebtId : Option String) (strategy : Strategy)
    (targetBlockId : Option String) (specificBlockIds : Option (List String))
    (shuffle : List Block → List Block) : List Block :=
  match specificBlockIds with
  | some ids =>
    if 0 < ids.length then
      debts.flatMap (fun d => filterQ (fun b => b.id ∈ ids ∧ 0 < b.current) d.blocks)
    else
      match strategy, targetBlockId with
      | Strategy.targeted, some tbid =>
        debts.flatMap (fun d =>
          match findQ (fun b => b.id = tbid) d.blocks with
          | some b => if 0 < b.current then [b] else []
          | none => [])
      | Strategy.random, _ => shuffle (randomCandidates debts targetDebtId)
      | _, _ => standardTargets debts targetDebtId
  | none =>
    match strategy, targetBlockId with
    | Strategy.targeted, some tbid =>
      debts.flatMap (fun d =>
        match findQ (fun b => b.id = tbid) d.blocks with
        | some b => if 0 < b.current then [b] else []
        | none => [])
    | Strategy.random, _ => shuffle (randomCandidates debts targetDebtId)
    | _, _ => standardTargets debts targetDebtId

/-- The `makePayment` action: guard on remaining principal, select targets,
run the damage loop, and credit the score counter with the applied amount. -/
def makePayment (s : GameState) (amount : ℚ) (targetDebtId : Option String)
    (strategy : Strategy) (targetBlockId : Option String)
    (specificBlockIds : Option (List String)) (shuffle : List Block → List Block) : GameState :=
  if remainingDebt s.debts ≤ 0 then s
  else
    let targetBlocks := selectTargets s.debts targetDebtId strategy targetBlockId
      specificBlockIds shuffle
    let res := payLoop s.debts amount (targetBlocks.map Block.id)
    { debts := res.1, totalPaidGame := s.totalPaidGame + (amount - res.2) }

def paySpecificBlock (s : GameState) (blockId : String) (amount : ℚ)
    (shuffle : List Block → List Block) : GameState :=
  makePayment s amount none Strategy.targeted (some blockId) none shuffle

def payBlocks (s : GameState) (amount : ℚ) (blockIds : List String)
    (shuffle : List Block → List Block) : GameState :=
  makePayment s amount none Strategy.standard none (some blockIds) shuffle

/-- The `resetProgress` action. -/
def resetProgress (s : GameState) : GameState :=
  { debts := s.debts.map (fun d =>
      { d with paid := 0, blocks := d.blocks.map (fun b => { b with current := b.max }) }),
    totalPaidGame := 0 }

/-- The `clearDebts` action. -/
def clearDebts (_s : GameState) : GameState :=
  { debts := [], totalPaidGame := 0 }

/-- The column count of `restack` in `PhysicsTower.vue`: floor-divide the
available width (viewport minus a 40px margin) by the effective block width
(block width plus the 1px gap), then clamp between 1 and `MAX_COLS = 12`. -/
def restackSafeCols (width w : ℚ) : ℤ :=
  let gap : ℚ := 1
  let effWidth := w + gap
  let availableWidth := width - 40
  let cols : ℤ := ⌊availableWidth / effWidth⌋
  max 1 (min cols 12)

/-- The position `restack` assigns to the active block at 0-based `index`:
running-bond grid with odd rows shifted by half a block width and rows
stacked bottom-up from the floor. -/
def restackPos (width height w h : ℚ) (index : ℕ) : ℚ × ℚ :=
  let gap : ℚ := 1
  let effWidth := w + gap
  let safeCols : ℤ := restackSafeCols width w
  let wallWidth := (safeCols : ℚ) * effWidth
  let startX := (width - wallWidth) / 2 + w / 2
  let row : ℤ := ⌊(index : ℚ) / (safeCols : ℚ)⌋
  let col : ℤ := (index : ℤ) % safeCols
  let isOddRow := ¬(row % 2 = 0)
  let newX := startX + (col : ℚ) * effWidth + (if isOddRow then w / 2 else 0)
  let newY := height - (row : ℚ) * (h + 1) - h / 2 - 10
  (newX, newY)

/-- The whole `restack` pass: every active block, in ledger iteration order,
is teleported to the position computed from its index. -/
def restack (width height w h : ℚ) (debts : List Debt) : List (String × (ℚ × ℚ)) :=
  (towerBlocks debts).mapIdx (fun i b => (b.id, restackPos width height w h i))

/-- Modelled from the spec (§4.3): `columns = clamp(floor((width − margin) /
(blockWidth + gap)), 1, maxColumns)` with margin 40, gap 1, maxColumns 12;
block `i` goes to `row = floor(i / columns)`, `col = i mod columns` (natural
division), with every odd row shifted right by half a block width and rows
stacked bottom-up from the floor. -/
def restackPosSpec (width height w h : ℚ) (i : ℕ) : ℚ × ℚ :=
  let columns : ℤ := min (max ⌊(width - 40) / (w + 1)⌋ 1) 12
  let row : ℕ := i / columns.toNat
  let col : ℕ := i % columns.toNat
  let startX := (width - (columns : ℚ) * (w + 1)) / 2 + w / 2
  let x := startX + (col : ℚ) * (w + 1) + (if row % 2 = 1 then w / 2 else 0)
  let y := height - (row : ℚ) * (h + 1) - h / 2 - 10
  (x, y)

/-- Modelled from the spec (§4.2.1): the greedy write-down on the ascending
list of interest-block currents — "take smallest, subtract
min(block.current, remaining), advance, until amount exhausted or no interest
blocks remain". -/
def greedyWriteDown (remaining : ℚ) : List ℚ → List ℚ
  | [] => []
  | c :: rest => (c - min c remaining) :: greedyWriteDown (remaining - min c remaining) rest

/-- Sum of `max - current` over a debt's principal blocks. -/
def principalGap (d : Debt) : ℚ :=
  sumBy d.blocks (fun b => if b.type = BlockType.principal then b.max - b.current else 0)

/-- Sum of `max` over a debt's principal blocks. -/
def principalMaxSum (d : Debt) : ℚ :=
  sumBy d.blocks (fun b => if b.type = BlockType.principal then b.max else 0)

/-- Sum of `current` over a debt's interest blocks (under the block invariant
this equals the remaining active interest, destroyed blocks contributing 0). -/
def interestSum (d : Debt) : ℚ :=
  sumBy d.blocks (fun b => if b.type = BlockType.interest then b.current else 0)

/-- Total outstanding interest across the ledger. -/
def outstandingInterest (debts : List Debt) : ℚ :=
  sumBy debts (fun d => interestSum d)

def allBlockIds (debts : List Debt) : List String :=
  debts.flatMap (fun d => d.blocks.map Block.id)

/-- Block-level data-model invariant, relative to the owning debt's id:
`0 ≤ current ≤ max`, and the back-pointer is consistent. -/
def BlockWF (did : String) (b : Block) : Prop :=
  0 ≤ b.current ∧ b.current ≤ b.max ∧ b.debtId = did

/-- Debt-level data-model invariant: every block is well-formed and owned,
the paid-accounting invariant Σ(max − current) over principal blocks =
`paid`, and the decomposition invariant Σ max over principal blocks =
`amount`. -/
def DebtWF (d : Debt) : Prop :=
  (∀ b ∈ d.blocks, BlockWF d.id b) ∧ principalGap d = d.paid ∧ principalMaxSum d = d.amount

/-- Ledger-level invariant: all debts well-formed, debt ids distinct, block
ids globally distinct. -/
def LedgerWF (debts : List Debt) : Prop :=
  (∀ d ∈ debts, DebtWF d) ∧ (debts.map Debt.id).Nodup ∧ (allBlockIds debts).Nodup

theorem findQ_eq_none {α : Type*} {p : α → Prop} [DecidablePred p] {l : List α} :
    findQ p l = none ↔ ∀ a ∈ l, ¬ p a := by
  induction l with
  | nil => simp [findQ]
  | cons a l ih =>
    by_cases h : p a <;> simp [findQ, h, ih]

theorem findQ_some {α : Type*} {p : α → Prop} [DecidablePred p] {l : List α} {a : α}
    (h : findQ p l = some a) : a ∈ l ∧ p a := by
  induction l with
  | nil => simp [findQ] at h
  | cons x l ih =>
    by_cases hx : p x
    · simp [findQ, hx] at h
      subst h
      exact ⟨List.mem_cons_self _ _, hx⟩
    · simp [findQ, hx] at h
      rcases ih h with ⟨hm, hp⟩
      exact ⟨List.mem_cons_of_mem _ hm, hp⟩

theorem findQ_split {α : Type*} {p : α → Prop} [DecidablePred p] {l : List α} {a : α}
    (h : findQ p l = some a) :
    ∃ l1 l2, l = l1 ++ a :: l2 ∧ ∀ x ∈ l1, ¬ p x := by
  induction l with
  | nil => simp [findQ] at h
  | cons x l ih =>
    by_cases hx : p x
    · simp [findQ, hx] at h
      exact ⟨[], l, by simp [h], by simp⟩
    · simp [findQ, hx] at h
      rcases ih h with ⟨l1, l2, hsplit, hnone⟩
      refine ⟨x :: l1, l2, by simp [hsplit], ?_⟩
      intro y hy
      rcases List.mem_cons.mp hy with rfl | hy'
      · exact hx
      · exact hnone y hy'

theorem findQ_of_mem {α : Type*} {p : α → Prop} [DecidablePred p] {l : List α} {a : α}
    (hm : a ∈ l) (hp : p a) : ∃ b, findQ p l = some b ∧ p b := by
  induction l with
  | nil => simp at hm
  | cons x l ih =>
    by_cases hx : p x
    · exact ⟨x, by simp [findQ, hx], hx⟩
    · rcases List.mem_cons.mp hm with rfl | hm'
      · exact absurd hp hx
      · rcases ih hm' with ⟨b, hb, hpb⟩
        exact ⟨b, by simp [findQ, hx, hb], hpb⟩

theorem mem_filterQ {α : Type*} {p : α → Prop} [DecidablePred p] {l : List α} {a : α} :
    a ∈ filterQ p l ↔ a ∈ l ∧ p a := by
  induction l with
  | nil => simp [filterQ]
  | cons x l ih =>
    by_cases hx : p x
    · by_cases hax : a = x
      · subst hax
        simp [filterQ, hx, ih]
      · simp [filterQ, hx, ih, hax, List.mem_cons]
    · by_cases hax : a = x
      · subst hax
        simp [filterQ, hx, ih]
      · simp [filterQ, hx, ih, hax, List.mem_cons]

theorem filterQ_sublist {α : Type*} (p : α → Prop) [DecidablePred p] (l : List α) :
    (filterQ p l).Sublist l := by
  induction l with
  | nil => simp [filterQ]
  | cons x l ih =>
    by_cases hx : p x
    · simpa [filterQ, hx] using ih.cons₂ x
    · simpa [filterQ, hx] using ih.cons x

theorem sumBy_nil {α : Type*} (f : α → ℚ) : sumBy [] f = 0 := rfl

theorem sumBy_cons {α : Type*} (a : α) (l : List α) (f : α → ℚ) :
    sumBy (a :: l) f = f a + sumBy l f := by
  simp [sumBy]

theorem sumBy_append {α : Type*} (l1 l2 : List α) (f : α → ℚ) :
    sumBy (l1 ++ l2) f = sumBy l1 f + sumBy l2 f := by
  simp [sumBy]

theorem sumBy_nonneg {α : Type*} {l : List α} {f : α → ℚ} (h : ∀ a ∈ l, 0 ≤ f a) :
    0 ≤ sumBy l f := by
  induction l with
  | nil => simp [sumBy]
  | cons a l ih =>
    rw [sumBy_cons]
    have := h a (List.mem_cons_self _ _)
    have := ih (fun x hx => h x (List.mem_cons_of_mem _ hx))
    linarith

theorem sumBy_congr {α : Type*} {l : List α} {f g : α → ℚ} (h : ∀ a ∈ l, f a = g a) :
    sumBy l f = sumBy l g := by
  induction l with
  | nil => simp [sumBy]
  | cons a l ih =>
    rw [sumBy_cons, sumBy_cons, h a (List.mem_cons_self _ _),
      ih (fun x hx => h x (List.mem_cons_of_mem _ hx))]

theorem sumBy_le_sumBy {α : Type*} {l : List α} {f g : α → ℚ} (h : ∀ a ∈ l, f a ≤ g a) :
    sumBy l f ≤ sumBy l g := by
  induction l with
  | nil => simp [sumBy]
  | cons a l ih =>
    rw [sumBy_cons, sumBy_cons]
    have := h a (List.mem_cons_self _ _)
    have := ih (fun x hx => h x (List.mem_cons_of_mem _ hx))
    linarith

theorem sumBy_perm {α : Type*} {l1 l2 : List α} (h : l1.Perm l2) (f : α → ℚ) :
    sumBy l1 f = sumBy l2 f := by
  simp [sumBy]
  exact (h.map f).sum_eq

theorem sumBy_map {α β : Type*} (l : List α) (g : α → β) (f : β → ℚ) :
    sumBy (l.map g) f = sumBy l (fun a => f (g a)) := by
  simp [sumBy, List.map_map]
  rfl

def allBlocks (debts : List Debt) : List Block :=
  debts.flatMap Debt.blocks

theorem allBlockIds_eq (debts : List Debt) :
    allBlockIds debts = (allBlocks debts).map Block.id := by
  induction debts with
  | nil => simp [allBlockIds, allBlocks]
  | cons d rest ih => simp [allBlockIds, allBlocks] at ih ⊢; simp [ih]

theorem findQ_map {α β : Type*} (p : β → Prop) [DecidablePred p] (g : α → β) (l : List α) :
    findQ p (l.map g) = (findQ (fun a => p (g a)) l).map g := by
  induction l with
  | nil => simp [findQ]
  | cons a l ih =>
    by_cases h : p (g a) <;> simp [findQ, h, ih]

theorem blocks_map_ite_id {blocks : List Block} {bid : String} {f : Block → Block}
    (h : ∀ b ∈ blocks, b.id ≠ bid) :
    blocks.map (fun b => if b.id = bid then f b else b) = blocks := by
  induction blocks with
  | nil => simp
  | cons b rest ih =>
    simp [h b (List.mem_cons_self _ _), ih (fun x hx => h x (List.mem_cons_of_mem _ hx))]

theorem updateBlockInList_eq_map {blocks : List Block} {bid : String} {f : Block → Block}
    (hnd : (blocks.map Block.id).Nodup) :
    updateBlockInList blocks bid f = blocks.map (fun b => if b.id = bid then f b else b) := by
  induction blocks with
  | nil => simp [updateBlockInList]
  | cons b rest ih =>
    simp only [List.map_cons, List.nodup_cons] at hnd
    by_cases h : b.id = bid
    · have hrest : ∀ x ∈ rest, x.id ≠ bid := by
        intro x hx hxid
        apply hnd.1
        rw [h, ← hxid]
        exact List.mem_map_of_mem _ hx
      simp [updateBlockInList, h, blocks_map_ite_id hrest]
    · simp [updateBlockInList, h, ih hnd.2]

theorem updateBlockInList_of_no_match {blocks : List Block} {bid : String} {f : Block → Block}
    (h : ∀ b ∈ blocks, b.id ≠ bid) :
    updateBlockInList blocks bid f = blocks := by
  induction blocks with
  | nil => simp [updateBlockInList]
  | cons b rest ih =>
    simp [updateBlockInList, h b (List.mem_cons_self _ _),
      ih (fun x hx => h x (List.mem_cons_of_mem _ hx))]

theorem updateDebt_eq_map {debts : List Debt} {did : String} {f : Debt → Debt}
    (hnd : (debts.map Debt.id).Nodup) :
    updateDebt debts did f = debts.map (fun d => if d.id = did then f d else d) := by
  induction debts with
  | nil => simp [updateDebt]
  | cons d rest ih =>
    simp only [List.map_cons, List.nodup_cons] at hnd
    by_cases h : d.id = did
    · have hrest : rest.map (fun d => if d.id = did then f d else d) = rest := by
        apply List.map_congr_left ?_ |>.trans (List.map_id rest)
        intro x hx
        have : x.id ≠ did := by
          intro hxid
          exact hnd.1 (by rw [h, ← hxid]; exact List.mem_map_of_mem _ hx)
        simp [this]
      simp [updateDebt, h, hrest]
    · simp [updateDebt, h, ih hnd.2]

theorem updateDebt_of_no_match {debts : List Debt} {did : String} {f : Debt → Debt}
    (h : ∀ d ∈ debts, d.id ≠ did) :
    updateDebt debts did f = debts := by
  induction debts with
  | nil => simp [updateDebt]
  | cons d rest ih =>
    simp [updateDebt, h d (List.mem_cons_self _ _),
      ih (fun x hx => h x (List.mem_cons_of_mem _ hx))]

theorem allBlockIds_cons (d : Debt) (rest : List Debt) :
    allBlockIds (d :: rest) = d.blocks.map Block.id ++ allBlockIds rest := by
  simp [allBlockIds]

theorem mem_allBlockIds {debts : List Debt} {bid : String} :
    bid ∈ allBlockIds debts ↔ ∃ d ∈ debts, ∃ b ∈ d.blocks, b.id = bid := by
  induction debts with
  | nil => simp [allBlockIds]
  | cons d rest ih =>
    simp only [allBlockIds_cons, List.mem_append, ih, List.mem_cons]
    constructor
    · rintro (h | ⟨d', hd', hb⟩)
      · rcases List.mem_map.mp h with ⟨b, hb, hbid⟩
        exact ⟨d, Or.inl rfl, b, hb, hbid⟩
      · exact ⟨d', Or.inr hd', hb⟩
    · rintro ⟨d', hd' | hd', b, hb, hbid⟩
      · subst hd'
        exact Or.inl (List.mem_map.mpr ⟨b, hb, hbid⟩)
      · exact Or.inr ⟨d', hd', b, hb, hbid⟩

theorem findQ_first_of_prefix {α : Type*} {p : α → Prop} [DecidablePred p]
    {l1 l2 : List α} {a : α} (h1 : ∀ x ∈ l1, ¬ p x) (ha : p a) :
    findQ p (l1 ++ a :: l2) = some a := by
  induction l1 with
  | nil => simp [findQ, ha]
  | cons y l1 ih =>
    simp only [List.cons_append, findQ, if_neg (h1 y (List.mem_cons_self _ _))]
    exact ih (fun x hx => h1 x (List.mem_cons_of_mem _ hx))

theorem findBlock?_eq_none {debts : List Debt} {bid : String} :
    findBlock? debts bid = none ↔ ∀ d ∈ debts, ∀ b ∈ d.blocks, b.id ≠ bid := by
  induction debts with
  | nil => simp [findBlock?]
  | cons d rest ih =>
    rcases hq : findQ (fun b => b.id = bid) d.blocks with _ | b
    · have hq' := findQ_eq_none.mp hq
      simp only [findBlock?, hq, ih]
      constructor
      · intro h d' hd'
        rcases List.mem_cons.mp hd' with rfl | hd''
        · exact hq'
        · exact h d' hd''
      · intro h d' hd'
        exact h d' (List.mem_cons_of_mem _ hd')
    · rcases findQ_some hq with ⟨hm, hp⟩
      simp only [findBlock?, hq]
      constructor
      · intro h
        exact absurd h (by simp)
      · intro h
        exact absurd hp (h d (List.mem_cons_self _ _) b hm)

theorem findBlock?_some_mem {debts : List Debt} {bid : String} {b : Block}
    (h : findBlock? debts bid = some b) :
    ∃ d ∈ debts, b ∈ d.blocks ∧ b.id = bid := by
  induction debts with
  | nil => simp [findBlock?] at h
  | cons d rest ih =>
    rcases hq : findQ (fun b => b.id = bid) d.blocks with _ | b'
    · simp only [findBlock?, hq] at h
      rcases ih h with ⟨d', hd', hb, hbid⟩
      exact ⟨d', List.mem_cons_of_mem _ hd', hb, hbid⟩
    · simp only [findBlock?, hq, Option.some.injEq] at h
      subst h
      rcases findQ_some hq with ⟨hm, hp⟩
      exact ⟨d, List.mem_cons_self _ _, hm, hp⟩

theorem findBlock?_of_mem {debts : List Debt} {d : Debt} {b : Block}
    (hnd : (allBlockIds debts).Nodup) (hd : d ∈ debts) (hb : b ∈ d.blocks) :
    findBlock? debts b.id = some b := by
  induction debts with
  | nil => simp at hd
  | cons d0 rest ih =>
    rw [allBlockIds_cons, List.nodup_append] at hnd
    rcases List.mem_cons.mp hd with heq | hd'
    · subst heq
      rcases List.append_of_mem hb with ⟨l1, l2, hsplit⟩
      have hnd1 : (d.blocks.map Block.id).Nodup := hnd.1
      rw [hsplit] at hnd1
      simp only [List.map_append, List.map_cons, List.nodup_append, List.nodup_cons] at hnd1
      have hxne : ∀ x ∈ l1, ¬ x.id = b.id := fun x hx hxeq =>
        hnd1.2.2 (List.mem_map_of_mem _ hx) (by simp [hxeq])
      have hfq : findQ (fun x => x.id = b.id) d.blocks = some b := by
        rw [hsplit]
        exact findQ_first_of_prefix hxne rfl
      simp [findBlock?, hfq]
    · have hq : findQ (fun x => x.id = b.id) d0.blocks = none := by
        rw [findQ_eq_none]
        intro x hx hxeq
        exact hnd.2.2 (List.mem_map_of_mem _ hx)
          (by rw [hxeq]; exact mem_allBlockIds.mpr ⟨d, hd', b, hb, rfl⟩)
      simp only [findBlock?, hq]
      exact ih hnd.2.1 hd'

theorem updateBlock_eq_map {debts : List Debt} {bid : String} {f : Block → Block}
    (hnd : (allBlockIds debts).Nodup) :
    updateBlock debts bid f =
      debts.map (fun d => { d with blocks := d.blocks.map (fun b => if b.id = bid then f b else b) }) := by
  induction debts with
  | nil => simp [updateBlock]
  | cons d rest ih =>
    rw [allBlockIds_cons, List.nodup_append] at hnd
    rcases hq : findQ (fun b => b.id = bid) d.blocks with _ | b
    · have hq' := findQ_eq_none.mp hq
      have hd : d.blocks.map (fun b => if b.id = bid then f b else b) = d.blocks :=
        blocks_map_ite_id hq'
      simp only [updateBlock, hq, List.map_cons, hd]
      rw [ih hnd.2.1]
    · rcases findQ_some hq with ⟨hm, hp⟩
      have hrest : rest.map
          (fun d => { d with blocks := d.blocks.map (fun b => if b.id = bid then f b else b) }) = rest := by
        refine (List.map_congr_left ?_).trans (List.map_id rest)
        intro d' hd'
        have hblocks : d'.blocks.map (fun b => if b.id = bid then f b else b) = d'.blocks := by
          apply blocks_map_ite_id
          intro x hx hxeq
          exact hnd.2.2 (by rw [← hp]; exact List.mem_map_of_mem _ hm)
            (mem_allBlockIds.mpr ⟨d', hd', x, hx, hxeq⟩)
        simp only [hblocks]
        rfl
      simp only [updateBlock, hq, List.map_cons,
        updateBlockInList_eq_map hnd.1, hrest]

theorem sumBy_map_ite {l : List Block} {bid : String} {b₀ : Block}
    (hnd : (l.map Block.id).Nodup) (hm : b₀ ∈ l) (hid : b₀.id = bid)
    (f : Block → Block) (g : Block → ℚ) :
    sumBy (l.map (fun b => if b.id = bid then f b else b)) g
      = sumBy l g - g b₀ + g (f b₀) := by
  rcases List.append_of_mem hm with ⟨l1, l2, hsplit⟩
  subst hsplit
  simp only [List.map_append, List.map_cons, List.nodup_append, List.nodup_cons] at hnd
  have h1 : ∀ x ∈ l1, x.id ≠ bid := by
    intro x hx hxeq
    exact hnd.2.2 (List.mem_map_of_mem _ hx) (by simp [hxeq, ← hid])
  have h2 : ∀ x ∈ l2, x.id ≠ bid := by
    intro x hx hxeq
    exact hnd.2.1.1 (by rw [← hid] at hxeq; rw [← hxeq]; exact List.mem_map_of_mem _ hx)
  rw [List.map_append, List.map_cons, blocks_map_ite_id h1, blocks_map_ite_id h2,
    if_pos hid, sumBy_append, sumBy_append, sumBy_cons, sumBy_cons]
  ring

theorem chunkSizes_sum (a : ℚ) : 0 ≤ a → (chunkSizes a).sum = a := by
  induction a using chunkSizes.induct with
  | case1 a h ih =>
    intro _
    have h1 : min a BLOCK_VALUE ≤ a := min_le_left _ _
    rw [chunkSizes, dif_pos h, List.sum_cons, ih (by linarith)]
    ring
  | case2 a h =>
    intro ha
    have h0 : a = 0 := le_antisymm (not_lt.mp h) ha
    rw [chunkSizes, dif_neg h]
    simp [h0]

theorem chunkSizes_mem (a : ℚ) : ∀ c ∈ chunkSizes a, 0 < c ∧ c ≤ BLOCK_VALUE := by
  induction a using chunkSizes.induct with
  | case1 a h ih =>
    rw [chunkSizes, dif_pos h]
    intro c hc
    rcases List.mem_cons.mp hc with rfl | hc'
    · exact ⟨lt_min h (by norm_num [BLOCK_VALUE]), min_le_right _ _⟩
    · exact ih c hc'
  | case2 a h =>
    rw [chunkSizes, dif_neg h]
    simp

theorem chunkSizes_eq_nil_iff (a : ℚ) : chunkSizes a = [] ↔ ¬ 0 < a := by
  constructor
  · intro hnil hpos
    rw [chunkSizes, dif_pos hpos] at hnil
    simp at hnil
  · intro h
    rw [chunkSizes, dif_neg h]

theorem chunkSizes_dropLast (a : ℚ) : ∀ c ∈ (chunkSizes a).dropLast, c = BLOCK_VALUE := by
  induction a using chunkSizes.induct with
  | case1 a h ih =>
    rw [chunkSizes, dif_pos h]
    rcases hrest : chunkSizes (a - min a BLOCK_VALUE) with _ | ⟨c0, rest0⟩
    · simp
    · have hne : ¬ (a - min a BLOCK_VALUE ≤ 0) := by
        intro hle
        have : chunkSizes (a - min a BLOCK_VALUE) = [] :=
          (chunkSizes_eq_nil_iff _).mpr (not_lt.mpr hle)
        rw [this] at hrest
        simp at hrest
      have hmin : min a BLOCK_VALUE = BLOCK_VALUE := by
        rcases le_or_lt a BLOCK_VALUE with hle | hlt
        · exfalso
          apply hne
          rw [min_eq_left hle]
          linarith
        · exact min_eq_right hlt.le
      rw [← hrest, List.dropLast_cons_of_ne_nil (by rw [hrest]; simp)]
      intro c hc
      rcases List.mem_cons.mp hc with rfl | hc'
      · exact hmin
      · exact ih c hc'
  | case2 a h =>
    rw [chunkSizes, dif_neg h]
    simp

theorem filterQ_append {α : Type*} (p : α → Prop) [DecidablePred p] (l1 l2 : List α) :
    filterQ p (l1 ++ l2) = filterQ p l1 ++ filterQ p l2 := by
  induction l1 with
  | nil => simp [filterQ]
  | cons a l ih =>
    by_cases h : p a <;> simp [filterQ, h, ih]

theorem filterQ_eq_self {α : Type*} {p : α → Prop} [DecidablePred p] {l : List α}
    (h : ∀ a ∈ l, p a) : filterQ p l = l := by
  induction l with
  | nil => simp [filterQ]
  | cons a l ih =>
    simp [filterQ, h a (List.mem_cons_self _ _),
      ih (fun x hx => h x (List.mem_cons_of_mem _ hx))]

theorem filterQ_eq_nil {α : Type*} {p : α → Prop} [DecidablePred p] {l : List α}
    (h : ∀ a ∈ l, ¬ p a) : filterQ p l = [] := by
  induction l with
  | nil => simp [filterQ]
  | cons a l ih =>
    simp [filterQ, h a (List.mem_cons_self _ _),
      ih (fun x hx => h x (List.mem_cons_of_mem _ hx))]

theorem principalBlocksFrom_map_max (did color : String) (k : ℕ) (chunks : List ℚ) :
    (principalBlocksFrom did color k chunks).map Block.max = chunks := by
  induction chunks generalizing k with
  | nil => simp [principalBlocksFrom]
  | cons c rest ih => simp [principalBlocksFrom, ih]

theorem principalBlocksFrom_fields (did color : String) (k : ℕ) (chunks : List ℚ) :
    ∀ b ∈ principalBlocksFrom did color k chunks,
      b.type = BlockType.principal ∧ b.debtId = did ∧ b.current = b.max ∧ b.max ∈ chunks := by
  induction chunks generalizing k with
  | nil => simp [principalBlocksFrom]
  | cons c rest ih =>
    intro b hb
    rcases List.mem_cons.mp hb with rfl | hb'
    · simp
    · rcases ih (k + 1) b hb' with ⟨h1, h2, h3, h4⟩
      exact ⟨h1, h2, h3, List.mem_cons_of_mem _ h4⟩

theorem interestBlocksFrom_map_max (did : String) (k : ℕ) (chunks : List ℚ) :
    (interestBlocksFrom did k chunks).map Block.max = chunks := by
  induction chunks generalizing k with
  | nil => simp [interestBlocksFrom]
  | cons c rest ih => simp [interestBlocksFrom, ih]

theorem interestBlocksFrom_fields (did : String) (k : ℕ) (chunks : List ℚ) :
    ∀ b ∈ interestBlocksFrom did k chunks,
      b.type = BlockType.interest ∧ b.debtId = did ∧ b.current = b.max ∧ b.max ∈ chunks := by
  induction chunks generalizing k with
  | nil => simp [interestBlocksFrom]
  | cons c rest ih =>
    intro b hb
    rcases List.mem_cons.mp hb with rfl | hb'
    · simp
    · rcases ih (k + 1) b hb' with ⟨h1, h2, h3, h4⟩
      exact ⟨h1, h2, h3, List.mem_cons_of_mem _ h4⟩

theorem mkDebtBlocks_principal (did color : String) (amount rate : ℚ) :
    filterQ (fun b => b.type = BlockType.principal) (mkDebtBlocks did color amount rate)
      = principalBlocksFrom did color 0 (chunkSizes amount) := by
  rw [mkDebtBlocks, filterQ_append, filterQ_eq_self, filterQ_eq_nil, List.append_nil]
  · intro b hb
    rw [(interestBlocksFrom_fields _ _ _ b hb).1]
    simp
  · intro b hb
    exact (principalBlocksFrom_fields _ _ _ _ b hb).1

theorem mkDebtBlocks_interest (did color : String) (amount rate : ℚ) :
    filterQ (fun b => b.type = BlockType.interest) (mkDebtBlocks did color amount rate)
      = interestBlocksFrom did (chunkSizes amount).length
          (chunkSizes (amount * (rate / 100))) := by
  rw [mkDebtBlocks, filterQ_append, filterQ_eq_nil, filterQ_eq_self, List.nil_append]
  · intro b hb
    exact (interestBlocksFrom_fields _ _ _ b hb).1
  · intro b hb
    rw [(principalBlocksFrom_fields _ _ _ _ b hb).1]
    simp

/-- C4: `addDebt(name, amount, rate)` with `amount > 0` and `rate ≥ 0` creates a
debt whose principal blocks all have `max` equal to the unit size `BLOCK_VALUE = 100`
except a final remainder block `≤ 100`, with the principal `max` values summing to
`amount`, and whose interest blocks are chunked by the same rule with `max` values
summing to `amount * (rate / 100)`. -/
theorem addDebt_block_decomposition (s : GameState) (id name : String) (amount rate : ℚ)
    (hA : 0 < amount) (hR : 0 ≤ rate) :
    ∃ dbt : Debt, (addDebt s id name amount rate).debts = s.debts ++ [dbt] ∧
      sumBy (filterQ (fun b => b.type = BlockType.principal) dbt.blocks) Block.max = amount ∧
      (∀ b ∈ (filterQ (fun b => b.type = BlockType.principal) dbt.blocks).dropLast,
        b.max = BLOCK_VALUE) ∧
      (∀ b ∈ filterQ (fun b => b.type = BlockType.principal) dbt.blocks,
        0 < b.max ∧ b.max ≤ BLOCK_VALUE) ∧
      sumBy (filterQ (fun b => b.type = BlockType.interest) dbt.blocks) Block.max
        = amount * (rate / 100) ∧
      (∀ b ∈ (filterQ (fun b => b.type = BlockType.interest) dbt.blocks).dropLast,
        b.max = BLOCK_VALUE) ∧
      (∀ b ∈ filterQ (fun b => b.type = BlockType.interest) dbt.blocks,
        0 < b.max ∧ b.max ≤ BLOCK_VALUE) := by
  have hI : 0 ≤ amount * (rate / 100) := mul_nonneg hA.le (div_nonneg hR (by norm_num))
  refine ⟨_, rfl, ?_, ?_, ?_, ?_, ?_, ?_⟩
  · show sumBy (filterQ _ (mkDebtBlocks id _ amount rate)) Block.max = amount
    rw [mkDebtBlocks_principal, sumBy, principalBlocksFrom_map_max, chunkSizes_sum _ hA.le]
  · show ∀ b ∈ (filterQ _ (mkDebtBlocks id _ amount rate)).dropLast, b.max = BLOCK_VALUE
    rw [mkDebtBlocks_principal]
    intro b hb
    have hmem : b.max ∈ (chunkSizes amount).dropLast := by
      have h1 := List.mem_map_of_mem Block.max hb
      rw [List.map_dropLast, principalBlocksFrom_map_max] at h1
      exact h1
    exact chunkSizes_dropLast _ _ hmem
  · show ∀ b ∈ filterQ _ (mkDebtBlocks id _ amount rate), 0 < b.max ∧ b.max ≤ BLOCK_VALUE
    rw [mkDebtBlocks_principal]
    intro b hb
    exact chunkSizes_mem _ _ (principalBlocksFrom_fields _ _ _ _ b hb).2.2.2
  · show sumBy (filterQ _ (mkDebtBlocks id _ amount rate)) Block.max = amount * (rate / 100)
    rw [mkDebtBlocks_interest, sumBy, interestBlocksFrom_map_max, chunkSizes_sum _ hI]
  · show ∀ b ∈ (filterQ _ (mkDebtBlocks id _ amount rate)).dropLast, b.max = BLOCK_VALUE
    rw [mkDebtBlocks_interest]
    intro b hb
    have hmem : b.max ∈ (chunkSizes (amount * (rate / 100))).dropLast := by
      have h1 := List.mem_map_of_mem Block.max hb
      rw [List.map_dropLast, interestBlocksFrom_map_max] at h1
      exact h1
    exact chunkSizes_dropLast _ _ hmem
  · show ∀ b ∈ filterQ _ (mkDebtBlocks id _ amount rate), 0 < b.max ∧ b.max ≤ BLOCK_VALUE
    rw [mkDebtBlocks_interest]
    intro b hb
    exact chunkSizes_mem _ _ (interestBlocksFrom_fields _ _ _ b hb).2.2.2

theorem addDebt_block_decomposition_witness :
    (0:ℚ) < 250 ∧ (0:ℚ) ≤ 10 ∧
    (∃ dbt : Debt,
      (addDebt ⟨[], 0⟩ "d" "n" 250 10).debts = (⟨[], 0⟩ : GameState).debts ++ [dbt] ∧
      sumBy (filterQ (fun b => b.type = BlockType.principal) dbt.blocks) Block.max = 250 ∧
      (∀ b ∈ (filterQ (fun b => b.type = BlockType.principal) dbt.blocks).dropLast,
        b.max = BLOCK_VALUE) ∧
      (∀ b ∈ filterQ (fun b => b.type = BlockType.principal) dbt.blocks,
        0 < b.max ∧ b.max ≤ BLOCK_VALUE) ∧
      sumBy (filterQ (fun b => b.type = BlockType.interest) dbt.blocks) Block.max
        = 250 * (10 / 100) ∧
      (∀ b ∈ (filterQ (fun b => b.type = BlockType.interest) dbt.blocks).dropLast,
        b.max = BLOCK_VALUE) ∧
      (∀ b ∈ filterQ (fun b => b.type = BlockType.interest) dbt.blocks,
        0 < b.max ∧ b.max ≤ BLOCK_VALUE)) :=
  ⟨by norm_num, by norm_num,
    addDebt_block_decomposition ⟨[], 0⟩ "d" "n" 250 10 (by norm_num) (by norm_num)⟩

theorem sumBy_sub {α : Type*} (l : List α) (f g : α → ℚ) :
    sumBy l (fun a => f a - g a) = sumBy l f - sumBy l g := by
  induction l with
  | nil => simp [sumBy]
  | cons a l ih =>
    rw [sumBy_cons, sumBy_cons, sumBy_cons, ih]
    ring

theorem remainingDebt_eq_sumBy (debts : List Debt) :
    remainingDebt debts = sumBy debts (fun d => d.amount - d.paid) := by
  rw [remainingDebt, totalDebt, totalPaid, sumBy_sub]

theorem reset_blocks_forall₂ (blocks : List Block) :
    List.Forall₂ (fun b b' : Block =>
        b'.id = b.id ∧ b'.debtId = b.debtId ∧ b'.max = b.max ∧ b'.color = b.color ∧
        b'.type = b.type ∧ b'.current = b.max)
      blocks (blocks.map (fun b => { b with current := b.max })) := by
  induction blocks with
  | nil => simp
  | cons b rest ih =>
    simp only [List.map_cons]
    exact List.Forall₂.cons ⟨rfl, rfl, rfl, rfl, rfl, rfl⟩ ih

/-- C8: `resetProgress` zeroes the score counter, removes no debt, and for every
debt (positionally) preserves identity, name, amount, rate and color while
setting `paid` to 0 and every block's `current` back to its `max`, preserving
all other block attributes including ids. -/
theorem resetProgress_frame (s : GameState) :
    (resetProgress s).totalPaidGame = 0 ∧
    (resetProgress s).debts.length = s.debts.length ∧
    List.Forall₂ (fun d d' : Debt =>
      d'.id = d.id ∧ d'.name = d.name ∧ d'.amount = d.amount ∧
      d'.interestRate = d.interestRate ∧ d'.color = d.color ∧ d'.paid = 0 ∧
      List.Forall₂ (fun b b' : Block =>
        b'.id = b.id ∧ b'.debtId = b.debtId ∧ b'.max = b.max ∧ b'.color = b.color ∧
        b'.type = b.type ∧ b'.current = b.max) d.blocks d'.blocks)
      s.debts (resetProgress s).debts := by
  refine ⟨rfl, by simp [resetProgress], ?_⟩
  show List.Forall₂ _ s.debts (s.debts.map _)
  induction s.debts with
  | nil => simp
  | cons d rest ih =>
    simp only [List.map_cons]
    exact List.Forall₂.cons ⟨rfl, rfl, rfl, rfl, rfl, rfl, reset_blocks_forall₂ d.blocks⟩ ih

/-- C6: when the total outstanding principal plus interest is zero, `makePayment`
with any positive amount, strategy and hint is a no-op: it returns the state
unchanged (no debt, block or score change, and no error). -/
theorem makePayment_noop_when_cleared (s : GameState) (amount : ℚ) (tid : Option String)
    (strategy : Strategy) (tbid : Option String) (sbids : Option (List String))
    (shuffle : List Block → List Block)
    (hpos : 0 < amount)
    (hpaid : ∀ d ∈ s.debts, d.paid ≤ d.amount)
    (hcur : ∀ d ∈ s.debts, ∀ b ∈ d.blocks, 0 ≤ b.current)
    (hzero : remainingDebt s.debts + outstandingInterest s.debts = 0) :
    makePayment s amount tid strategy tbid sbids shuffle = s := by
  have h1 : 0 ≤ remainingDebt s.debts := by
    rw [remainingDebt_eq_sumBy]
    exact sumBy_nonneg (fun d hd => by have := hpaid d hd; linarith)
  have h2 : 0 ≤ outstandingInterest s.debts := by
    apply sumBy_nonneg
    intro d hd
    apply sumBy_nonneg
    intro b hb
    by_cases hbt : b.type = BlockType.interest
    · simp only [hbt, if_pos]
      exact hcur d hd b hb
    · simp [hbt]
  have hle : remainingDebt s.debts ≤ 0 := by linarith
  rw [makePayment, if_pos hle]

/-- C10: once the summed `paid` equals the summed `amount`, the guard in
`makePayment` (which only compares remaining principal) makes every payment a
no-op even while active interest blocks remain, so those blocks can never be
damaged or destroyed by any further payment. -/
theorem makePayment_noop_after_principal_paid (s : GameState) (amount : ℚ)
    (tid : Option String) (strategy : Strategy) (tbid : Option String)
    (sbids : Option (List String)) (shuffle : List Block → List Block)
    (hpaid : totalPaid s.debts = totalDebt s.debts)
    (_hint : ∃ d ∈ s.debts, ∃ b ∈ d.blocks, b.type = BlockType.interest ∧ 0 < b.current) :
    makePayment s amount tid strategy tbid sbids shuffle = s := by
  have hle : remainingDebt s.debts ≤ 0 := by
    rw [remainingDebt, hpaid]
    simp
  rw [makePayment, if_pos hle]

def wPrincipalBlockDone : Block :=
  { id := "a-0", debtId := "a", current := 0, max := 100, color := "c",
    type := BlockType.principal }

def wInterestBlockDone : Block :=
  { id := "a-int-1", debtId := "a", current := 0, max := 10, color := "#7f1d1d",
    type := BlockType.interest }

def wInterestBlockLive : Block :=
  { id := "a-int-1", debtId := "a", current := 10, max := 10, color := "#7f1d1d",
    type := BlockType.interest }

def wDebtCleared : Debt :=
  { id := "a", name := "n", amount := 100, paid := 100, interestRate := 10,
    color := "c", blocks := [wPrincipalBlockDone, wInterestBlockDone] }

def wDebtPaidButInterest : Debt :=
  { id := "a", name := "n", amount := 100, paid := 100, interestRate := 10,
    color := "c", blocks := [wPrincipalBlockDone, wInterestBlockLive] }

theorem makePayment_noop_when_cleared_witness :
    (0:ℚ) < 50 ∧ (∀ d ∈ [wDebtCleared], d.paid ≤ d.amount) ∧
    (∀ d ∈ [wDebtCleared], ∀ b ∈ d.blocks, 0 ≤ b.current) ∧
    remainingDebt [wDebtCleared] + outstandingInterest [wDebtCleared] = 0 ∧
    makePayment ⟨[wDebtCleared], 0⟩ 50 none Strategy.standard none none (fun l => l)
      = ⟨[wDebtCleared], 0⟩ := by
  have h1 : (0:ℚ) < 50 := by norm_num
  have h2 : ∀ d ∈ [wDebtCleared], d.paid ≤ d.amount := by
    intro d hd
    simp only [List.mem_singleton] at hd
    subst hd
    norm_num [wDebtCleared]
  have h3 : ∀ d ∈ [wDebtCleared], ∀ b ∈ d.blocks, 0 ≤ b.current := by
    intro d hd b hb
    simp only [List.mem_singleton] at hd
    subst hd
    simp only [wDebtCleared, List.mem_cons, List.mem_singleton] at hb
    rcases hb with rfl | rfl | h
    · norm_num [wPrincipalBlockDone]
    · norm_num [wInterestBlockDone]
    · simp at h
  have h4 : remainingDebt [wDebtCleared] + outstandingInterest [wDebtCleared] = 0 := by
    simp [remainingDebt, totalDebt, totalPaid, sumBy, outstandingInterest, interestSum,
      wDebtCleared, wPrincipalBlockDone, wInterestBlockDone]
  exact ⟨h1, h2, h3, h4,
    makePayment_noop_when_cleared ⟨[wDebtCleared], 0⟩ 50 none Strategy.standard none none
      (fun l => l) h1 h2 h3 h4⟩

theorem makePayment_noop_after_principal_paid_witness :
    totalPaid [wDebtPaidButInterest] = totalDebt [wDebtPaidButInterest] ∧
    (∃ d ∈ [wDebtPaidButInterest], ∃ b ∈ d.blocks,
      b.type = BlockType.interest ∧ 0 < b.current) ∧
    makePayment ⟨[wDebtPaidButInterest], 0⟩ 50 none Strategy.standard none none (fun l => l)
      = ⟨[wDebtPaidButInterest], 0⟩ := by
  have h1 : totalPaid [wDebtPaidButInterest] = totalDebt [wDebtPaidButInterest] := by
    simp [totalPaid, totalDebt, sumBy, wDebtPaidButInterest]
  have h2 : ∃ d ∈ [wDebtPaidButInterest], ∃ b ∈ d.blocks,
      b.type = BlockType.interest ∧ 0 < b.current := by
    refine ⟨wDebtPaidButInterest, List.mem_singleton.mpr rfl, wInterestBlockLive, ?_, rfl, ?_⟩
    · simp [wDebtPaidButInterest]
    · norm_num [wInterestBlockLive]
  exact ⟨h1, h2,
    makePayment_noop_after_principal_paid ⟨[wDebtPaidButInterest], 0⟩ 50 none
      Strategy.standard none none (fun l => l) h1 h2⟩

theorem restackSafeCols_clamp (width w : ℚ) :
    restackSafeCols width w = min (max ⌊(width - 40) / (w + 1)⌋ 1) 12 := by
  rw [restackSafeCols]
  rcases le_total ⌊(width - 40) / (w + 1)⌋ 1 with h1 | h1 <;>
    rcases le_total ⌊(width - 40) / (w + 1)⌋ 12 with h2 | h2 <;>
      simp [max_def, min_def] <;> omega

theorem restack_row_cast (i n : ℕ) (hn : 1 ≤ n) :
    ⌊(i : ℚ) / ((n : ℕ) : ℚ)⌋ = ((i / n : ℕ) : ℤ) := by
  rw [← Int.natCast_floor_eq_floor (div_nonneg (by positivity) (by positivity))]
  rw [Nat.floor_div_eq_div]

/-- C9: the restack layout is a pure (hence deterministic) function of the
viewport dimensions and the ordered active-block list, and the position
assigned to the block at index `i` follows the claimed grid formula:
`columns = clamp(⌊(width − 40) / (blockWidth + 1)⌋, 1, 12)`,
`row = i / columns`, `col = i % columns` (natural division), odd rows shifted
right by half a block width, rows stacked bottom-up from the floor. -/
theorem restack_grid_assignment (width height w h : ℚ) (debts : List Debt) :
    restack width height w h debts = restack width height w h debts ∧
    ∀ i : ℕ, restackPos width height w h i = restackPosSpec width height w h i := by
  refine ⟨rfl, ?_⟩
  intro i
  have hS1 : (1:ℤ) ≤ restackSafeCols width w := le_max_left _ _
  obtain ⟨n, hn⟩ : ∃ n : ℕ, restackSafeCols width w = (n : ℤ) :=
    ⟨(restackSafeCols width w).toNat, (Int.toNat_of_nonneg (by linarith)).symm⟩
  have hn1 : 1 ≤ n := by exact_mod_cast hn ▸ hS1
  have hrow := restack_row_cast i n hn1
  have hcolcast : (((i : ℤ) % (n : ℤ) : ℤ) : ℚ) = ((i % n : ℕ) : ℚ) := by
    norm_cast
  have hodd : (¬(((i / n : ℕ) : ℤ) % 2 = 0)) ↔ ((i / n) % 2 = 1) := by omega
  rw [restackPos, restackPosSpec, ← restackSafeCols_clamp, hn]
  simp only [Int.toNat_natCast]
  rw [show ((((n : ℕ) : ℤ) : ℚ)) = ((n : ℕ) : ℚ) from by push_cast; ring]
  rw [hrow]
  rw [if_congr hodd rfl rfl]
  rw [hcolcast]
  rw [show ((((i / n : ℕ) : ℤ) : ℚ)) = (((i / n : ℕ)) : ℚ) from by norm_cast]

theorem updateBlockInList_map_id {blocks : List Block} {bid : String} {f : Block → Block}
    (hf : ∀ b, (f b).id = b.id) :
    (updateBlockInList blocks bid f).map Block.id = blocks.map Block.id := by
  induction blocks with
  | nil => simp [updateBlockInList]
  | cons b rest ih =>
    by_cases h : b.id = bid
    · simp [updateBlockInList, h, hf]
    · simp [updateBlockInList, h, ih]

theorem findQ_id_updateBlockInList_ne {blocks : List Block} {bid bid' : String}
    {f : Block → Block} (hne : bid' ≠ bid) (hf : ∀ b, (f b).id = b.id) :
    findQ (fun b => b.id = bid') (updateBlockInList blocks bid f)
      = findQ (fun b => b.id = bid') blocks := by
  induction blocks with
  | nil => simp [updateBlockInList]
  | cons b rest ih =>
    by_cases h : b.id = bid
    · have hb' : ¬ (f b).id = bid' := by
        rw [hf, h]
        exact fun hc => hne hc.symm
      have hb'' : ¬ b.id = bid' := by
        rw [h]
        exact fun hc => hne hc.symm
      simp only [updateBlockInList, if_pos h, findQ, if_neg hb', if_neg hb'']
    · by_cases h2 : b.id = bid'
      · simp only [updateBlockInList, if_neg h, findQ, if_pos h2]
      · simp only [updateBlockInList, if_neg h, findQ, if_neg h2]
        exact ih

theorem nodup_findQ_unique {blocks : List Block} {b : Block}
    (hnd : (blocks.map Block.id).Nodup) (hb : b ∈ blocks) :
    findQ (fun x => x.id = b.id) blocks = some b := by
  induction blocks with
  | nil => simp at hb
  | cons b0 rest ih =>
    simp only [List.map_cons, List.nodup_cons] at hnd
    rcases List.mem_cons.mp hb with rfl | hb'
    · simp [findQ]
    · have hne : ¬ b0.id = b.id := by
        intro hc
        exact hnd.1 (by rw [hc]; exact List.mem_map_of_mem _ hb')
      simp [findQ, hne, ih hnd.2 hb']

theorem greedyWriteDown_zero {cs : List ℚ} (h : ∀ c ∈ cs, 0 ≤ c) :
    greedyWriteDown 0 cs = cs := by
  induction cs with
  | nil => simp [greedyWriteDown]
  | cons c rest ih =>
    have hc : min c 0 = 0 := min_eq_right (h c (List.mem_cons_self _ _))
    simp only [greedyWriteDown, hc, sub_zero]
    rw [ih (fun x hx => h x (List.mem_cons_of_mem _ hx))]

/-- Association list sending each selected block's id to its post-write-down
current, per the spec's greedy smallest-first description. -/
def writeDownAssoc (sel : List Block) (remaining : ℚ) : List (String × ℚ) :=
  List.zip (sel.map Block.id) (greedyWriteDown remaining (sel.map Block.current))

/-- Apply an id-to-current association pointwise to a block list. -/
def applyWriteDown (assoc : List (String × ℚ)) (blocks : List Block) : List Block :=
  blocks.map (fun b =>
    match findQ (fun p => p.1 = b.id) assoc with
    | some p => { b with current := p.2 }
    | none => b)

theorem applyWriteDown_nil (blocks : List Block) : applyWriteDown [] blocks = blocks := by
  simp [applyWriteDown, findQ]

theorem zip_lookup_mem {sel : List Block} {vals : List ℚ} {x : String} {p : String × ℚ}
    (h : findQ (fun p => p.1 = x) (List.zip (sel.map Block.id) vals) = some p) :
    ∃ bs ∈ sel, p.1 = bs.id ∧ bs.id = x := by
  induction sel generalizing vals with
  | nil => simp [findQ] at h
  | cons bs sel' ih =>
    rcases vals with _ | ⟨v, vals'⟩
    · simp [findQ] at h
    · by_cases hx : bs.id = x
      · simp only [List.map_cons, List.zip_cons_cons, findQ, if_pos hx] at h
        have hp := Option.some_inj.mp h
        refine ⟨bs, List.mem_cons_self _ _, ?_, hx⟩
        rw [← hp]
      · simp only [List.map_cons, List.zip_cons_cons, findQ, if_neg hx] at h
        rcases ih h with ⟨bs', hm, hp1, hpx⟩
        exact ⟨bs', List.mem_cons_of_mem _ hm, hp1, hpx⟩

theorem zip_self_lookup {sel : List Block} {x : String} {p : String × ℚ}
    (h : findQ (fun p => p.1 = x) (List.zip (sel.map Block.id) (sel.map Block.current))
      = some p) :
    ∃ bs ∈ sel, p = (bs.id, bs.current) ∧ bs.id = x := by
  induction sel with
  | nil => simp [findQ] at h
  | cons bs sel' ih =>
    by_cases hx : bs.id = x
    · simp only [List.map_cons, List.zip_cons_cons, findQ, if_pos hx] at h
      have hp := Option.some_inj.mp h
      exact ⟨bs, List.mem_cons_self _ _, hp.symm, hx⟩
    · simp only [List.map_cons, List.zip_cons_cons, findQ, if_neg hx] at h
      rcases ih h with ⟨bs', hm, hp1, hpx⟩
      exact ⟨bs', List.mem_cons_of_mem _ hm, hp1, hpx⟩

theorem applyWriteDown_self {blocks sel : List Block}
    (hnd : (blocks.map Block.id).Nodup)
    (hsel : ∀ bs ∈ sel, findQ (fun b => b.id = bs.id) blocks = some bs) :
    applyWriteDown (List.zip (sel.map Block.id) (sel.map Block.current)) blocks = blocks := by
  rw [applyWriteDown]
  refine (List.map_congr_left ?_).trans (List.map_id blocks)
  intro b hb
  rcases hq : findQ (fun p => p.1 = b.id)
      (List.zip (sel.map Block.id) (sel.map Block.current)) with _ | p
  · simp [hq]
  · rcases zip_self_lookup hq with ⟨bs, hm, hp, hbsid⟩
    have h1 : findQ (fun x => x.id = bs.id) blocks = some bs := hsel bs hm
    have h2 : findQ (fun x => x.id = b.id) blocks = some b := nodup_findQ_unique hnd hb
    rw [hbsid] at h1
    rw [h1] at h2
    have hbb : bs = b := Option.some_inj.mp h2
    subst hbb
    simp [hq, hp]

theorem applyWriteDown_cons {blocks : List Block} {bid : String} {v : ℚ}
    {assoc : List (String × ℚ)}
    (hnd : (blocks.map Block.id).Nodup)
    (hnotin : ∀ p ∈ assoc, p.1 ≠ bid) :
    applyWriteDown ((bid, v) :: assoc) blocks
      = applyWriteDown assoc (updateBlockInList blocks bid (fun x => { x with current := v })) := by
  rw [applyWriteDown, applyWriteDown, updateBlockInList_eq_map hnd, List.map_map]
  apply List.map_congr_left
  intro b _
  by_cases h : b.id = bid
  · have hhead : findQ (fun p => p.1 = b.id) ((bid, v) :: assoc) = some (bid, v) := by
      simp [findQ, h.symm]
    have hassoc : findQ (fun p => p.1 = b.id) assoc = none := by
      rw [findQ_eq_none]
      intro p hp hc
      exact hnotin p hp (by rw [hc, h])
    simp only [hhead, Function.comp_apply, if_pos h, hassoc]
  · have hne : ¬ (bid = b.id) := fun hc => h hc.symm
    have hhead : findQ (fun p => p.1 = b.id) ((bid, v) :: assoc)
        = findQ (fun p => p.1 = b.id) assoc := by
      simp [findQ, hne]
    simp only [hhead, Function.comp_apply, if_neg h]

theorem updateBlockInList_congr {blocks : List Block} {bid : String} {f g : Block → Block}
    {b₀ : Block} (hnd : (blocks.map Block.id).Nodup)
    (hfind : findQ (fun b => b.id = bid) blocks = some b₀) (hfg : f b₀ = g b₀) :
    updateBlockInList blocks bid f = updateBlockInList blocks bid g := by
  rw [updateBlockInList_eq_map hnd, updateBlockInList_eq_map hnd]
  apply List.map_congr_left
  intro b hb
  by_cases h : b.id = bid
  · have h1 : findQ (fun x => x.id = b.id) blocks = some b := nodup_findQ_unique hnd hb
    rw [h] at h1
    rw [hfind] at h1
    have : b₀ = b := Option.some_inj.mp h1
    subst this
    simp [h, hfg]
  · simp [h]

theorem reduceLoop_eq_applyWriteDown :
    ∀ (sel : List Block) (blocks : List Block) (rem : ℚ),
    (blocks.map Block.id).Nodup →
    (∀ bs ∈ sel, findQ (fun b => b.id = bs.id) blocks = some bs) →
    (sel.map Block.id).Nodup →
    (∀ bs ∈ sel, 0 < bs.current) →
    0 ≤ rem →
    reduceLoop blocks (sel.map Block.id) rem = applyWriteDown (writeDownAssoc sel rem) blocks
  | [], blocks, rem, _, _, _, _, _ => by
    simp [reduceLoop, writeDownAssoc, applyWriteDown_nil, greedyWriteDown]
  | bs :: sel', blocks, rem, hnd, hsel, hselnd, hpos, hrem => by
    have hfind : findQ (fun b => b.id = bs.id) blocks = some bs :=
      hsel bs (List.mem_cons_self _ _)
    have hselnd' : (sel'.map Block.id).Nodup := by
      simp only [List.map_cons, List.nodup_cons] at hselnd
      exact hselnd.2
    have hbsnotin : bs.id ∉ sel'.map Block.id := by
      simp only [List.map_cons, List.nodup_cons] at hselnd
      exact hselnd.1
    have hnotin : ∀ p ∈ writeDownAssoc sel' (rem - min bs.current rem), p.1 ≠ bs.id := by
      intro p hp hc
      rcases p with ⟨px, pv⟩
      rcases List.of_mem_zip hp with ⟨h1, _⟩
      exact hbsnotin (by rw [← hc]; exact h1)
    have hwda : writeDownAssoc (bs :: sel') rem
        = (bs.id, bs.current - min bs.current rem)
          :: writeDownAssoc sel' (rem - min bs.current rem) := by
      simp [writeDownAssoc, greedyWriteDown]
    by_cases hr0 : rem ≤ 0
    · have hrz : rem = 0 := le_antisymm hr0 hrem
      subst hrz
      have hLHS : reduceLoop blocks ((bs :: sel').map Block.id) 0 = blocks := by
        simp [reduceLoop]
      rw [hLHS, writeDownAssoc,
        greedyWriteDown_zero (by
          intro c hc
          rcases List.mem_map.mp hc with ⟨x, hx, rfl⟩
          exact (hpos x hx).le)]
      exact (applyWriteDown_self hnd hsel).symm
    · have hrpos : 0 < rem := lt_of_not_ge hr0
      have hdle : min bs.current rem ≤ bs.current := min_le_left _ _
      by_cases hshift : bs.current - min bs.current rem ≤ 0
      · have hdam : min bs.current rem = bs.current := le_antisymm hdle (by linarith)
        have hLHS : reduceLoop blocks ((bs :: sel').map Block.id) rem
            = reduceLoop (updateBlockInList blocks bs.id
                (fun x => { x with current := x.current - min bs.current rem }))
              (sel'.map Block.id) (rem - min bs.current rem) := by
          simp only [List.map_cons, reduceLoop, if_neg hr0, hfind, if_pos hshift]
        have hnd1 : ((updateBlockInList blocks bs.id
            (fun x => { x with current := x.current - min bs.current rem })).map Block.id).Nodup := by
          rw [updateBlockInList_map_id]
          exacts [hnd, fun b => rfl]
        have hsel1 : ∀ b' ∈ sel', findQ (fun b => b.id = b'.id)
            (updateBlockInList blocks bs.id
              (fun x => { x with current := x.current - min bs.current rem })) = some b' := by
          intro b' hb'
          have hne : b'.id ≠ bs.id := by
            intro hc
            exact hbsnotin (by rw [← hc]; exact List.mem_map_of_mem _ hb')
          rw [findQ_id_updateBlockInList_ne hne]
          exacts [hsel b' (List.mem_cons_of_mem _ hb'), fun b => rfl]
        have hIH := reduceLoop_eq_applyWriteDown sel'
          (updateBlockInList blocks bs.id
            (fun x => { x with current := x.current - min bs.current rem }))
          (rem - min bs.current rem) hnd1 hsel1 hselnd'
          (fun b' hb' => hpos b' (List.mem_cons_of_mem _ hb'))
          (by rw [hdam]; have := min_le_right bs.current rem; linarith)
        rw [hLHS, hIH, hwda]
        rw [applyWriteDown_cons hnd hnotin]
        congr 1
        apply updateBlockInList_congr hnd hfind
        rfl
      · have hdam : min bs.current rem = rem := by
          rcases min_cases bs.current rem with ⟨h1, h2⟩ | ⟨h1, h2⟩
          · exfalso
            apply hshift
            rw [h1]
            linarith
          · exact h1
        have hLHS : reduceLoop blocks ((bs :: sel').map Block.id) rem
            = updateBlockInList blocks bs.id
                (fun x => { x with current := x.current - min bs.current rem }) := by
          simp only [List.map_cons, reduceLoop, if_neg hr0, hfind, if_neg hshift]
        have hgz : greedyWriteDown (rem - min bs.current rem) (sel'.map Block.current)
            = sel'.map Block.current := by
          rw [hdam, sub_self]
          apply greedyWriteDown_zero
          intro c hc
          rcases List.mem_map.mp hc with ⟨x, hx, rfl⟩
          exact (hpos x (List.mem_cons_of_mem _ hx)).le
        have hnd1 : ((updateBlockInList blocks bs.id
            (fun x => { x with current := x.current - min bs.current rem })).map Block.id).Nodup := by
          rw [updateBlockInList_map_id]
          exacts [hnd, fun b => rfl]
        have hsel1 : ∀ b' ∈ sel', findQ (fun b => b.id = b'.id)
            (updateBlockInList blocks bs.id
              (fun x => { x with current := x.current - min bs.current rem })) = some b' := by
          intro b' hb'
          have hne : b'.id ≠ bs.id := by
            intro hc
            exact hbsnotin (by rw [← hc]; exact List.mem_map_of_mem _ hb')
          rw [findQ_id_updateBlockInList_ne hne]
          exacts [hsel b' (List.mem_cons_of_mem _ hb'), fun b => rfl]
        rw [hLHS, hwda]
        rw [applyWriteDown_cons hnd hnotin]
        rw [show writeDownAssoc sel' (rem - min bs.current rem)
            = List.zip (sel'.map Block.id) (sel'.map Block.current) from by
          rw [writeDownAssoc, hgz]]
        have hcongr : updateBlockInList blocks bs.id
            (fun x => { x with current := bs.current - min bs.current rem })
            = updateBlockInList blocks bs.id
              (fun x => { x with current := x.current - min bs.current rem }) :=
          updateBlockInList_congr hnd hfind rfl
        rw [hcongr]
        exact (applyWriteDown_self hnd1 hsel1).symm

instance : IsTotal Block (fun a b => a.current ≤ b.current) :=
  ⟨fun a b => le_total a.current b.current⟩

instance : IsTrans Block (fun a b => a.current ≤ b.current) :=
  ⟨fun _ _ _ h1 h2 => le_trans h1 h2⟩

/-- The candidate list of `reduceInterestBlocks`: the debt's active interest
blocks, stably sorted ascending by `current`. -/
def sortedActiveInterest (d : Debt) : List Block :=
  List.insertionSort (fun a b => a.current ≤ b.current)
    (filterQ (fun b => b.type = BlockType.interest ∧ 0 < b.current) d.blocks)

theorem reduceInterestBlocks_def (d : Debt) (amount : ℚ) :
    reduceInterestBlocks d amount
      = { d with blocks := reduceLoop d.blocks ((sortedActiveInterest d).map Block.id) amount } :=
  rfl

theorem sortedActiveInterest_perm (d : Debt) :
    (sortedActiveInterest d).Perm
      (filterQ (fun b => b.type = BlockType.interest ∧ 0 < b.current) d.blocks) :=
  List.perm_insertionSort _ _

theorem sortedActiveInterest_sorted (d : Debt) :
    List.Pairwise (fun a b : Block => a.current ≤ b.current) (sortedActiveInterest d) :=
  List.sorted_insertionSort _ _

theorem sortedActiveInterest_mem {d : Debt} {b : Block} (h : b ∈ sortedActiveInterest d) :
    b ∈ d.blocks ∧ b.type = BlockType.interest ∧ 0 < b.current := by
  have hm := (sortedActiveInterest_perm d).mem_iff.mp h
  rcases mem_filterQ.mp hm with ⟨h1, h2, h3⟩
  exact ⟨h1, h2, h3⟩

theorem sortedActiveInterest_nodup {d : Debt} (hnd : (d.blocks.map Block.id).Nodup) :
    ((sortedActiveInterest d).map Block.id).Nodup := by
  have hperm := ((sortedActiveInterest_perm d).map Block.id)
  rw [hperm.nodup_iff]
  exact ((filterQ_sublist _ d.blocks).map Block.id).nodup hnd

theorem sortedActiveInterest_findQ {d : Debt} (hnd : (d.blocks.map Block.id).Nodup) :
    ∀ bs ∈ sortedActiveInterest d, findQ (fun b => b.id = bs.id) d.blocks = some bs := by
  intro bs hbs
  exact nodup_findQ_unique hnd (sortedActiveInterest_mem hbs).1

theorem reduceInterestBlocks_char (d : Debt) (amount : ℚ)
    (hnd : (d.blocks.map Block.id).Nodup) (hrem : 0 ≤ amount) :
    (reduceInterestBlocks d amount).blocks
      = applyWriteDown (writeDownAssoc (sortedActiveInterest d) amount) d.blocks := by
  rw [reduceInterestBlocks_def]
  exact reduceLoop_eq_applyWriteDown (sortedActiveInterest d) d.blocks amount hnd
    (sortedActiveInterest_findQ hnd) (sortedActiveInterest_nodup hnd)
    (fun bs hbs => (sortedActiveInterest_mem hbs).2.2) hrem

/-- C7: `reduceInterestBlocks` damages the debt's active interest blocks in
ascending order of `current` (smallest first), each step subtracting
`min(block.current, remaining)` until the amount is exhausted or no active
interest block remains: its candidate list is an ascending permutation of the
active interest blocks, and its result is exactly the spec's greedy
smallest-first write-down (`greedyWriteDown`) applied along that candidate
list, leaving all other blocks untouched. -/
theorem reduceInterestBlocks_greedy (d : Debt) (amount : ℚ)
    (hnd : (d.blocks.map Block.id).Nodup) (hrem : 0 ≤ amount) :
    List.Pairwise (fun a b : Block => a.current ≤ b.current) (sortedActiveInterest d) ∧
    (sortedActiveInterest d).Perm
      (filterQ (fun b => b.type = BlockType.interest ∧ 0 < b.current) d.blocks) ∧
    (reduceInterestBlocks d amount).blocks
      = applyWriteDown (writeDownAssoc (sortedActiveInterest d) amount) d.blocks := by
  exact ⟨sortedActiveInterest_sorted d, sortedActiveInterest_perm d,
    reduceInterestBlocks_char d amount hnd hrem⟩

def wIntA : Block :=
  { id := "a-int-1", debtId := "a", current := 30, max := 100, color := "#7f1d1d",
    type := BlockType.interest }

def wIntB : Block :=
  { id := "a-int-2", debtId := "a", current := 10, max := 100, color := "#7f1d1d",
    type := BlockType.interest }

def wDebtTwoInterest : Debt :=
  { id := "a", name := "n", amount := 100, paid := 0, interestRate := 10,
    color := "c", blocks := [wPrincipalBlockDone, wIntA, wIntB] }

theorem reduceInterestBlocks_greedy_witness :
    (wDebtTwoInterest.blocks.map Block.id).Nodup ∧ (0:ℚ) ≤ 15 ∧
    (List.Pairwise (fun a b : Block => a.current ≤ b.current)
        (sortedActiveInterest wDebtTwoInterest) ∧
      (sortedActiveInterest wDebtTwoInterest).Perm
        (filterQ (fun b => b.type = BlockType.interest ∧ 0 < b.current)
          wDebtTwoInterest.blocks) ∧
      (reduceInterestBlocks wDebtTwoInterest 15).blocks
        = applyWriteDown (writeDownAssoc (sortedActiveInterest wDebtTwoInterest) 15)
            wDebtTwoInterest.blocks) := by
  have h1 : (wDebtTwoInterest.blocks.map Block.id).Nodup := by
    simp [wDebtTwoInterest, wPrincipalBlockDone, wIntA, wIntB]
  have h2 : (0:ℚ) ≤ 15 := by norm_num
  exact ⟨h1, h2, reduceInterestBlocks_greedy wDebtTwoInterest 15 h1 h2⟩

theorem greedyWriteDown_sum : ∀ (cs : List ℚ) (rem : ℚ), 0 ≤ rem → (∀ c ∈ cs, 0 ≤ c) →
    cs.sum - (greedyWriteDown rem cs).sum = min rem cs.sum
  | [], rem, hrem, _ => by
    simp [greedyWriteDown, min_eq_right hrem]
  | c :: cs, rem, hrem, hc => by
    have hc0 : 0 ≤ c := hc c (List.mem_cons_self _ _)
    have hcs0 : 0 ≤ cs.sum := by
      have : sumBy cs (fun x => x) = cs.sum := by simp [sumBy]
      rw [← this]
      exact sumBy_nonneg (fun x hx => hc x (List.mem_cons_of_mem _ hx))
    have hdle : min c rem ≤ rem := min_le_right _ _
    have hIH := greedyWriteDown_sum cs (rem - min c rem) (by linarith)
      (fun x hx => hc x (List.mem_cons_of_mem _ hx))
    simp only [greedyWriteDown, List.sum_cons]
    rcases le_total c rem with hcr | hcr
    · have hd : min c rem = c := min_eq_left hcr
      rw [hd] at hIH ⊢
      rcases le_total (rem - c) cs.sum with h1 | h1
      · rw [min_eq_left h1] at hIH
        rw [min_eq_left (by linarith)]
        linarith
      · rw [min_eq_right h1] at hIH
        rw [min_eq_right (by linarith)]
        linarith
    · have hd : min c rem = rem := min_eq_right hcr
      rw [hd] at hIH ⊢
      rw [sub_self, min_eq_left hcs0] at hIH
      rw [sub_self, min_eq_left (by linarith : rem ≤ c + cs.sum)]
      linarith

theorem greedyWriteDown_mem_bounds : ∀ (cs : List ℚ) (rem : ℚ), 0 ≤ rem → (∀ c ∈ cs, 0 ≤ c) →
    List.Forall₂ (fun c c' => 0 ≤ c' ∧ c' ≤ c) cs (greedyWriteDown rem cs)
  | [], rem, _, _ => by simp [greedyWriteDown]
  | c :: cs, rem, hrem, hc => by
    have hc0 : 0 ≤ c := hc c (List.mem_cons_self _ _)
    have hmin0 : 0 ≤ min c rem := le_min hc0 hrem
    have hminc : min c rem ≤ c := min_le_left _ _
    have hminr : min c rem ≤ rem := min_le_right _ _
    simp only [greedyWriteDown]
    exact List.Forall₂.cons ⟨by linarith, by linarith⟩
      (greedyWriteDown_mem_bounds cs (rem - min c rem) (by linarith)
        (fun x hx => hc x (List.mem_cons_of_mem _ hx)))

theorem findQ_preserved_update {blocks sel' : List Block} {bs : Block} {f : Block → Block}
    (hf : ∀ b, (f b).id = b.id)
    (hsel : ∀ b' ∈ sel', findQ (fun b => b.id = b'.id) blocks = some b')
    (hnot : bs.id ∉ sel'.map Block.id) :
    ∀ b' ∈ sel', findQ (fun b => b.id = b'.id) (updateBlockInList blocks bs.id f) = some b' := by
  intro b' hb'
  have hne : b'.id ≠ bs.id := by
    intro hc
    exact hnot (by rw [← hc]; exact List.mem_map_of_mem _ hb')
  rw [findQ_id_updateBlockInList_ne hne hf]
  exact hsel b' hb'

theorem sumBy_applyWriteDown_interest :
    ∀ (sel : List Block) (blocks : List Block) (rem : ℚ),
    (blocks.map Block.id).Nodup →
    (∀ bs ∈ sel, findQ (fun b => b.id = bs.id) blocks = some bs) →
    (sel.map Block.id).Nodup →
    (∀ bs ∈ sel, bs.type = BlockType.interest) →
    sumBy (applyWriteDown (writeDownAssoc sel rem) blocks)
        (fun b => if b.type = BlockType.interest then b.current else 0)
      = sumBy blocks (fun b => if b.type = BlockType.interest then b.current else 0)
        - ((sel.map Block.current).sum - (greedyWriteDown rem (sel.map Block.current)).sum)
  | [], blocks, rem, _, _, _, _ => by
    simp [writeDownAssoc, applyWriteDown_nil, greedyWriteDown]
  | bs :: sel', blocks, rem, hnd, hsel, hselnd, htype => by
    have hfind : findQ (fun b => b.id = bs.id) blocks = some bs :=
      hsel bs (List.mem_cons_self _ _)
    have hbsmem : bs ∈ blocks := (findQ_some hfind).1
    have hselnd' : (sel'.map Block.id).Nodup := by
      simp only [List.map_cons, List.nodup_cons] at hselnd
      exact hselnd.2
    have hbsnotin : bs.id ∉ sel'.map Block.id := by
      simp only [List.map_cons, List.nodup_cons] at hselnd
      exact hselnd.1
    have hnotin : ∀ p ∈ writeDownAssoc sel' (rem - min bs.current rem), p.1 ≠ bs.id := by
      intro p hp hc
      rcases List.of_mem_zip hp with ⟨h1, _⟩
      exact hbsnotin (by rw [← hc]; exact h1)
    have hwda : writeDownAssoc (bs :: sel') rem
        = (bs.id, bs.current - min bs.current rem)
          :: writeDownAssoc sel' (rem - min bs.current rem) := by
      simp [writeDownAssoc, greedyWriteDown]
    have hnd1 : ((updateBlockInList blocks bs.id
        (fun x => { x with current := bs.current - min bs.current rem })).map Block.id).Nodup := by
      rw [updateBlockInList_map_id]
      exacts [hnd, fun b => rfl]
    have hsel1 : ∀ b' ∈ sel', findQ (fun b => b.id = b'.id)
        (updateBlockInList blocks bs.id
          (fun x => { x with current := bs.current - min bs.current rem })) = some b' :=
      findQ_preserved_update (fun b => rfl)
        (fun b' hb' => hsel b' (List.mem_cons_of_mem _ hb')) hbsnotin
    have hIH := sumBy_applyWriteDown_interest sel'
      (updateBlockInList blocks bs.id
        (fun x => { x with current := bs.current - min bs.current rem }))
      (rem - min bs.current rem) hnd1 hsel1 hselnd'
      (fun b' hb' => htype b' (List.mem_cons_of_mem _ hb'))
    have hupdeq : updateBlockInList blocks bs.id
        (fun x => { x with current := bs.current - min bs.current rem })
        = blocks.map (fun b => if b.id = bs.id
            then { b with current := bs.current - min bs.current rem } else b) :=
      updateBlockInList_eq_map hnd
    have hsum1 : sumBy (updateBlockInList blocks bs.id
        (fun x => { x with current := bs.current - min bs.current rem }))
          (fun b => if b.type = BlockType.interest then b.current else 0)
        = sumBy blocks (fun b => if b.type = BlockType.interest then b.current else 0)
          - bs.current + (bs.current - min bs.current rem) := by
      rw [hupdeq, sumBy_map_ite hnd hbsmem rfl]
      have hbst := htype bs (List.mem_cons_self _ _)
      simp [hbst]
    rw [hwda, applyWriteDown_cons hnd hnotin, hIH, hsum1]
    simp only [List.map_cons, List.sum_cons, greedyWriteDown]
    ring

theorem sumBy_activeInterest {blocks : List Block} (hcur : ∀ b ∈ blocks, 0 ≤ b.current) :
    sumBy (filterQ (fun b => b.type = BlockType.interest ∧ 0 < b.current) blocks) Block.current
      = sumBy blocks (fun b => if b.type = BlockType.interest then b.current else 0) := by
  induction blocks with
  | nil => simp [filterQ, sumBy]
  | cons b rest ih =>
    have ih' := ih (fun x hx => hcur x (List.mem_cons_of_mem _ hx))
    by_cases ht : b.type = BlockType.interest
    · by_cases hp : 0 < b.current
      · rw [show filterQ (fun b => b.type = BlockType.interest ∧ 0 < b.current) (b :: rest)
            = b :: filterQ (fun b => b.type = BlockType.interest ∧ 0 < b.current) rest from by
          simp [filterQ, ht, hp]]
        rw [sumBy_cons, sumBy_cons, ih']
        simp [ht]
      · have hz : b.current = 0 :=
          le_antisymm (not_lt.mp hp) (hcur b (List.mem_cons_self _ _))
        rw [show filterQ (fun b => b.type = BlockType.interest ∧ 0 < b.current) (b :: rest)
            = filterQ (fun b => b.type = BlockType.interest ∧ 0 < b.current) rest from by
          simp [filterQ, hp]]
        rw [sumBy_cons, ih']
        simp [ht, hz]
    · rw [show filterQ (fun b => b.type = BlockType.interest ∧ 0 < b.current) (b :: rest)
          = filterQ (fun b => b.type = BlockType.interest ∧ 0 < b.current) rest from by
        simp [filterQ, ht]]
      rw [sumBy_cons, ih']
      simp [ht]

theorem reduceInterestBlocks_interestSum (d : Debt) (amount : ℚ)
    (hnd : (d.blocks.map Block.id).Nodup) (hrem : 0 ≤ amount)
    (hcur : ∀ b ∈ d.blocks, 0 ≤ b.current) :
    interestSum (reduceInterestBlocks d amount)
      = interestSum d - min amount (interestSum d) := by
  have hchar := reduceInterestBlocks_char d amount hnd hrem
  have hg : interestSum (reduceInterestBlocks d amount)
      = sumBy (applyWriteDown (writeDownAssoc (sortedActiveInterest d) amount) d.blocks)
        (fun b => if b.type = BlockType.interest then b.current else 0) := by
    simp only [interestSum]
    rw [hchar]
  rw [hg, sumBy_applyWriteDown_interest _ _ _ hnd (sortedActiveInterest_findQ hnd)
    (sortedActiveInterest_nodup hnd) (fun bs hbs => (sortedActiveInterest_mem hbs).2.1)]
  have hcs : ∀ c ∈ (sortedActiveInterest d).map Block.current, 0 ≤ c := by
    intro c hc
    rcases List.mem_map.mp hc with ⟨x, hx, rfl⟩
    exact (sortedActiveInterest_mem hx).2.2.le
  have hgs := greedyWriteDown_sum ((sortedActiveInterest d).map Block.current) amount hrem hcs
  have hselsum : ((sortedActiveInterest d).map Block.current).sum = interestSum d := by
    rw [((sortedActiveInterest_perm d).map Block.current).sum_eq]
    rw [show ((filterQ (fun b => b.type = BlockType.interest ∧ 0 < b.current) d.blocks).map
        Block.current).sum
        = sumBy (filterQ (fun b => b.type = BlockType.interest ∧ 0 < b.current) d.blocks)
          Block.current from rfl]
    rw [sumBy_activeInterest hcur]
    rfl
  rw [hgs, hselsum]
  rfl

theorem interestSum_nonneg {d : Debt} (hcur : ∀ b ∈ d.blocks, 0 ≤ b.current) :
    0 ≤ interestSum d := by
  apply sumBy_nonneg
  intro b hb
  by_cases ht : b.type = BlockType.interest
  · simp only [ht, if_pos]
    exact hcur b hb
  · simp [ht]

theorem creditPrincipal_spec (d : Debt) (damage : ℚ)
    (hnd : (d.blocks.map Block.id).Nodup) (hcur : ∀ b ∈ d.blocks, 0 ≤ b.current)
    (hdam : 0 ≤ damage) (hrate : 0 ≤ d.interestRate) :
    (creditPrincipal d damage).paid = d.paid + damage ∧
    (creditPrincipal d damage).id = d.id ∧
    (creditPrincipal d damage).name = d.name ∧
    (creditPrincipal d damage).amount = d.amount ∧
    (creditPrincipal d damage).interestRate = d.interestRate ∧
    (creditPrincipal d damage).color = d.color ∧
    interestSum (creditPrincipal d damage)
      = interestSum d - min (damage * (d.interestRate / 100)) (interestSum d) := by
  rw [creditPrincipal]
  by_cases hred : 0 < damage * (d.interestRate / 100)
  · simp only [if_pos hred]
    refine ⟨by trivial, by trivial, by trivial, by trivial, by trivial, by trivial, ?_⟩
    have h := reduceInterestBlocks_interestSum { d with paid := d.paid + damage }
      (damage * (d.interestRate / 100)) hnd hred.le hcur
    rw [h]
    rfl
  · simp only [if_neg hred]
    refine ⟨by trivial, by trivial, by trivial, by trivial, by trivial, by trivial, ?_⟩
    have hz : damage * (d.interestRate / 100) = 0 :=
      le_antisymm (not_lt.mp hred) (mul_nonneg hdam (div_nonneg hrate (by norm_num)))
    rw [show interestSum { d with paid := d.paid + damage } = interestSum d from rfl, hz,
      min_eq_left (interestSum_nonneg hcur)]
    ring

theorem nodup_findQ_unique_debt {debts : List Debt} {d : Debt}
    (hnd : (debts.map Debt.id).Nodup) (hd : d ∈ debts) :
    findQ (fun x => x.id = d.id) debts = some d := by
  induction debts with
  | nil => simp at hd
  | cons d0 rest ih =>
    simp only [List.map_cons, List.nodup_cons] at hnd
    rcases List.mem_cons.mp hd with rfl | hd'
    · simp [findQ]
    · have hne : ¬ d0.id = d.id := by
        intro hc
        exact hnd.1 (by rw [hc]; exact List.mem_map_of_mem _ hd')
      simp [findQ, hne, ih hnd.2 hd']

theorem findQ_debt_map {debts : List Debt} {did : String} {g : Debt → Debt}
    (hg : ∀ d, (g d).id = d.id) :
    findQ (fun d => d.id = did) (debts.map g)
      = (findQ (fun d => d.id = did) debts).map g := by
  induction debts with
  | nil => simp [findQ]
  | cons d rest ih =>
    by_cases h : d.id = did
    · simp [findQ, hg, h]
    · simp [findQ, hg, h, ih]

theorem updateBlock_map_debtId (debts : List Debt) (bid : String) (f : Block → Block) :
    (updateBlock debts bid f).map Debt.id = debts.map Debt.id := by
  induction debts with
  | nil => simp [updateBlock]
  | cons d rest ih =>
    rcases hq : findQ (fun b => b.id = bid) d.blocks with _ | b
    · simp [updateBlock, hq, ih]
    · simp [updateBlock, hq]

theorem updateBlock_map_paid (debts : List Debt) (bid : String) (f : Block → Block) :
    (updateBlock debts bid f).map Debt.paid = debts.map Debt.paid := by
  induction debts with
  | nil => simp [updateBlock]
  | cons d rest ih =>
    rcases hq : findQ (fun b => b.id = bid) d.blocks with _ | b
    · simp [updateBlock, hq, ih]
    · simp [updateBlock, hq]

theorem creditPrincipal_id (d : Debt) (damage : ℚ) :
    (creditPrincipal d damage).id = d.id := by
  rw [creditPrincipal]
  by_cases h : 0 < damage * (({ d with paid := d.paid + damage } : Debt).interestRate / 100)
  · simp only [if_pos h]
    rfl
  · simp only [if_neg h]

theorem blocks_nodup_of_ledger {debts : List Debt} {d : Debt}
    (hnd : (allBlockIds debts).Nodup) (hd : d ∈ debts) :
    (d.blocks.map Block.id).Nodup := by
  induction debts with
  | nil => simp at hd
  | cons d0 rest ih =>
    rw [allBlockIds_cons, List.nodup_append] at hnd
    rcases List.mem_cons.mp hd with rfl | hd'
    · exact hnd.1
    · exact ih hnd.2.1 hd'

/-- C2: one iteration of the damage loop on a principal block adds exactly the
damage `min(current, amountLeft)` to the owning debt's `paid` and removes
exactly `damage * (rate / 100)` from that debt's interest blocks in aggregate,
bounded by the remaining interest; an iteration on an interest block changes
no `paid` field and triggers no further write-down — its entire effect is
that single block's decrement. -/
theorem payStep_principal_interest (debts : List Debt) (bid : String) (amountLeft : ℚ)
    (block : Block)
    (hWF : LedgerWF debts)
    (hrate : ∀ d ∈ debts, 0 ≤ d.interestRate)
    (hfb : findBlock? debts bid = some block)
    (hA : 0 < amountLeft) :
    (block.type = BlockType.principal →
      ∃ own own' : Debt,
        findQ (fun d => d.id = block.debtId) debts = some own ∧
        findQ (fun d => d.id = block.debtId) (payStep debts amountLeft bid).1 = some own' ∧
        own'.paid = own.paid + min block.current amountLeft ∧
        interestSum own' = interestSum own
          - min (min block.current amountLeft * (own.interestRate / 100)) (interestSum own)) ∧
    (block.type = BlockType.interest →
      (payStep debts amountLeft bid).1.map Debt.paid = debts.map Debt.paid ∧
      (payStep debts amountLeft bid).1
        = updateBlock debts bid
            (fun b => { b with current := b.current - min block.current amountLeft })) := by
  rcases findBlock?_some_mem hfb with ⟨own, hown_mem, hblock_mem, hbid⟩
  have hownWF := hWF.1 own hown_mem
  have hdid : block.debtId = own.id := (hownWF.1 block hblock_mem).2.2
  have hown_nodup : (own.blocks.map Block.id).Nodup :=
    blocks_nodup_of_ledger hWF.2.2 hown_mem
  have hdam0 : 0 ≤ min block.current amountLeft :=
    le_min (hownWF.1 block hblock_mem).1 hA.le
  constructor
  · intro htype
    have hstep : (payStep debts amountLeft bid).1
        = updateDebt
            (updateBlock debts bid
              (fun b => { b with current := b.current - min block.current amountLeft }))
            block.debtId (fun d => creditPrincipal d (min block.current amountLeft)) := by
      simp only [payStep, hfb, htype, if_pos]
    have hupd : updateBlock debts bid
        (fun b => { b with current := b.current - min block.current amountLeft })
        = debts.map (fun d => { d with blocks := d.blocks.map (fun b =>
            if b.id = bid
            then { b with current := b.current - min block.current amountLeft } else b) }) :=
      updateBlock_eq_map hWF.2.2
    have hids1 : (debts.map (fun d => { d with blocks := d.blocks.map (fun b =>
        if b.id = bid
        then { b with current := b.current - min block.current amountLeft } else b) })).map
          Debt.id = debts.map Debt.id := by
      rw [List.map_map]
      rfl
    have hnd1 : ((updateBlock debts bid
        (fun b => { b with current := b.current - min block.current amountLeft })).map
          Debt.id).Nodup := by
      rw [hupd, hids1]
      exact hWF.2.1
    have hupdD : updateDebt
        (updateBlock debts bid
          (fun b => { b with current := b.current - min block.current amountLeft }))
        block.debtId (fun d => creditPrincipal d (min block.current amountLeft))
        = (updateBlock debts bid
            (fun b => { b with current := b.current - min block.current amountLeft })).map
            (fun d => if d.id = block.debtId
              then creditPrincipal d (min block.current amountLeft) else d) :=
      updateDebt_eq_map hnd1
    have hfound1 : findQ (fun d => d.id = block.debtId)
        (updateBlock debts bid
          (fun b => { b with current := b.current - min block.current amountLeft }))
        = some { own with blocks := own.blocks.map (fun b =>
            if b.id = bid
            then { b with current := b.current - min block.current amountLeft } else b) } := by
      rw [hupd]
      have hq : findQ (fun d : Debt => d.id = block.debtId)
          (debts.map (fun d : Debt => { d with blocks := d.blocks.map (fun b =>
            if b.id = bid
            then { b with current := b.current - min block.current amountLeft } else b) }))
          = (findQ (fun d : Debt => d.id = block.debtId) debts).map
              (fun d : Debt => { d with blocks := d.blocks.map (fun b =>
                if b.id = bid
                then { b with current := b.current - min block.current amountLeft } else b) }) :=
        findQ_debt_map (fun d => rfl)
      rw [hq, hdid, nodup_findQ_unique_debt hWF.2.1 hown_mem]
      rfl
    have hGid : ∀ d : Debt, ((fun d : Debt => if d.id = block.debtId
        then creditPrincipal d (min block.current amountLeft) else d) d).id = d.id := by
      intro d
      show (if d.id = block.debtId
        then creditPrincipal d (min block.current amountLeft) else d).id = d.id
      by_cases h : d.id = block.debtId
      · rw [if_pos h, creditPrincipal_id]
      · rw [if_neg h]
    have hfound2 : findQ (fun d => d.id = block.debtId)
        (updateDebt
          (updateBlock debts bid
            (fun b => { b with current := b.current - min block.current amountLeft }))
          block.debtId (fun d => creditPrincipal d (min block.current amountLeft)))
        = some (creditPrincipal
            { own with blocks := own.blocks.map (fun b =>
              if b.id = bid
              then { b with current := b.current - min block.current amountLeft } else b) }
            (min block.current amountLeft)) := by
      rw [hupdD]
      have hq : findQ (fun d => d.id = block.debtId)
          ((updateBlock debts bid
            (fun b => { b with current := b.current - min block.current amountLeft })).map
            (fun d => if d.id = block.debtId
              then creditPrincipal d (min block.current amountLeft) else d))
          = (findQ (fun d => d.id = block.debtId)
              (updateBlock debts bid
                (fun b => { b with current := b.current - min block.current amountLeft }))).map
              (fun d => if d.id = block.debtId
                then creditPrincipal d (min block.current amountLeft) else d) :=
        findQ_debt_map hGid
      rw [hq, hfound1]
      simp only [Option.map]
      rw [if_pos (show ({ own with blocks := own.blocks.map (fun b =>
        if b.id = bid
        then { b with current := b.current - min block.current amountLeft } else b) } : Debt).id
          = block.debtId from by rw [hdid])]
    have hcur1 : ∀ b' ∈ own.blocks.map (fun b =>
        if b.id = bid
        then { b with current := b.current - min block.current amountLeft } else b),
        0 ≤ b'.current := by
      intro b' hb'
      rcases List.mem_map.mp hb' with ⟨b, hb, rfl⟩
      by_cases h : b.id = bid
      · simp only [if_pos h]
        by_cases hbb : b = block
        · subst hbb
          show 0 ≤ b.current - min b.current amountLeft
          have := min_le_left b.current amountLeft
          linarith
        · exfalso
          have h1 : findQ (fun x => x.id = b.id) own.blocks = some b :=
            nodup_findQ_unique hown_nodup hb
          have h2 : findQ (fun x => x.id = block.id) own.blocks = some block :=
            nodup_findQ_unique hown_nodup hblock_mem
          rw [h, ← hbid] at h1
          rw [h1] at h2
          exact hbb (Option.some_inj.mp h2)
      · simp only [if_neg h]
        exact (hownWF.1 b hb).1
    have hnd1own : ((own.blocks.map (fun b =>
        if b.id = bid
        then { b with current := b.current - min block.current amountLeft } else b)).map
          Block.id).Nodup := by
      rw [List.map_map]
      have : (Block.id ∘ fun b =>
          if b.id = bid
          then { b with current := b.current - min block.current amountLeft } else b)
          = Block.id := by
        funext b
        by_cases h : b.id = bid <;> simp [h]
      rw [this]
      exact hown_nodup
    have hspec := creditPrincipal_spec
      { own with blocks := own.blocks.map (fun b =>
        if b.id = bid
        then { b with current := b.current - min block.current amountLeft } else b) }
      (min block.current amountLeft) hnd1own hcur1 hdam0 (hrate own hown_mem)
    have hiseq : interestSum { own with blocks := own.blocks.map (fun b =>
        if b.id = bid
        then { b with current := b.current - min block.current amountLeft } else b) }
        = interestSum own := by
      show sumBy (own.blocks.map _) _ = sumBy own.blocks _
      rw [sumBy_map_ite hown_nodup hblock_mem hbid]
      have hpr : ¬ (block.type = BlockType.interest) := by
        rw [htype]
        simp
      simp [hpr]
    refine ⟨own, creditPrincipal
        { own with blocks := own.blocks.map (fun b =>
          if b.id = bid
          then { b with current := b.current - min block.current amountLeft } else b) }
        (min block.current amountLeft), ?_, ?_, ?_, ?_⟩
    · rw [hdid]
      exact nodup_findQ_unique_debt hWF.2.1 hown_mem
    · rw [hstep]
      exact hfound2
    · rw [hspec.1]
    · rw [hspec.2.2.2.2.2.2, hiseq]
  · intro htype
    have hne : ¬ (block.type = BlockType.principal) := by
      rw [htype]
      simp
    have hstep : (payStep debts amountLeft bid).1
        = updateBlock debts bid
            (fun b => { b with current := b.current - min block.current amountLeft }) := by
      simp only [payStep, hfb, if_neg hne]
    rw [hstep]
    exact ⟨updateBlock_map_paid _ _ _, rfl⟩

def wP1 : Block :=
  { id := "a-0", debtId := "a", current := 100, max := 100, color := "c",
    type := BlockType.principal }

def wI1 : Block :=
  { id := "a-int-1", debtId := "a", current := 10, max := 10, color := "#7f1d1d",
    type := BlockType.interest }

def wDebtC2 : Debt :=
  { id := "a", name := "n", amount := 100, paid := 0, interestRate := 10,
    color := "c", blocks := [wP1, wI1] }

theorem payStep_principal_interest_witness :
    LedgerWF [wDebtC2] ∧ (∀ d ∈ [wDebtC2], 0 ≤ d.interestRate) ∧
    findBlock? [wDebtC2] "a-0" = some wP1 ∧ (0:ℚ) < 40 ∧
    ((wP1.type = BlockType.principal →
      ∃ own own' : Debt,
        findQ (fun d => d.id = wP1.debtId) [wDebtC2] = some own ∧
        findQ (fun d => d.id = wP1.debtId) (payStep [wDebtC2] 40 "a-0").1 = some own' ∧
        own'.paid = own.paid + min wP1.current 40 ∧
        interestSum own' = interestSum own
          - min (min wP1.current 40 * (own.interestRate / 100)) (interestSum own)) ∧
    (wP1.type = BlockType.interest →
      (payStep [wDebtC2] 40 "a-0").1.map Debt.paid = [wDebtC2].map Debt.paid ∧
      (payStep [wDebtC2] 40 "a-0").1
        = updateBlock [wDebtC2] "a-0"
            (fun b => { b with current := b.current - min wP1.current 40 }))) := by
  have hWF : LedgerWF [wDebtC2] := by
    refine ⟨?_, ?_, ?_⟩
    · intro d hd
      simp only [List.mem_singleton] at hd
      subst hd
      refine ⟨?_, ?_, ?_⟩
      · intro b hb
        simp only [wDebtC2, List.mem_cons, List.mem_singleton] at hb
        rcases hb with rfl | rfl | h
        · exact ⟨by norm_num [wP1], by norm_num [wP1], rfl⟩
        · exact ⟨by norm_num [wI1], by norm_num [wI1], rfl⟩
        · simp at h
      · show principalGap wDebtC2 = wDebtC2.paid
        simp [principalGap, sumBy, wDebtC2, wP1, wI1]
      · show principalMaxSum wDebtC2 = wDebtC2.amount
        simp [principalMaxSum, sumBy, wDebtC2, wP1, wI1]
    · simp [wDebtC2]
    · simp [allBlockIds, wDebtC2, wP1, wI1]
  have hrate : ∀ d ∈ [wDebtC2], 0 ≤ d.interestRate := by
    intro d hd
    simp only [List.mem_singleton] at hd
    subst hd
    norm_num [wDebtC2]
  have hfb : findBlock? [wDebtC2] "a-0" = some wP1 := by
    simp [findBlock?, findQ, wDebtC2, wP1]
  have hA : (0:ℚ) < 40 := by norm_num
  exact ⟨hWF, hrate, hfb, hA,
    payStep_principal_interest [wDebtC2] "a-0" 40 wP1 hWF hrate hfb hA⟩

/-- The live current of the block with the given id (0 when absent). -/
def currentOf (debts : List Debt) (bid : String) : ℚ :=
  match findBlock? debts bid with
  | some b => b.current
  | none => 0

theorem flatMap_filterQ (debts : List Debt) (p : Block → Prop) [DecidablePred p] :
    debts.flatMap (fun d => filterQ p d.blocks) = filterQ p (debts.flatMap Debt.blocks) := by
  induction debts with
  | nil => simp [filterQ]
  | cons d rest ih => simp [filterQ_append, ih]

/-- C3 (amended): with a nonempty explicit block-id list, the candidate list is
the given block ids filtered to those still active, but in LEDGER iteration
order (debt order, then block creation order) — not in caller-given order. -/
theorem selectTargets_explicit_ledger_order (debts : List Debt) (tid : Option String)
    (strategy : Strategy) (tbid : Option String) (ids : List String)
    (shuffle : List Block → List Block) (hne : ids ≠ []) :
    selectTargets debts tid strategy tbid (some ids) shuffle
      = filterQ (fun b => b.id ∈ ids ∧ 0 < b.current) (debts.flatMap Debt.blocks) := by
  have hlen : 0 < ids.length := List.length_pos.mpr hne
  simp only [selectTargets, if_pos hlen]
  exact flatMap_filterQ debts _

def wB0 : Block :=
  { id := "b-0", debtId := "a", current := 100, max := 100, color := "c",
    type := BlockType.principal }

def wB1 : Block :=
  { id := "b-1", debtId := "a", current := 100, max := 100, color := "c",
    type := BlockType.principal }

def wDebtC3 : Debt :=
  { id := "a", name := "n", amount := 200, paid := 0, interestRate := 0,
    color := "c", blocks := [wB0, wB1] }

theorem selectTargets_explicit_ledger_order_witness :
    (["b-1", "b-0"] : List String) ≠ [] ∧
    selectTargets [wDebtC3] none Strategy.standard none (some ["b-1", "b-0"]) (fun l => l)
      = filterQ (fun b => b.id ∈ ["b-1", "b-0"] ∧ 0 < b.current)
          ([wDebtC3].flatMap Debt.blocks) := by
  have hne : (["b-1", "b-0"] : List String) ≠ [] := by simp
  exact ⟨hne, selectTargets_explicit_ledger_order [wDebtC3] none Strategy.standard none
    ["b-1", "b-0"] (fun l => l) hne⟩

def wDebtC3After : Debt :=
  { wDebtC3 with paid := 150, blocks := [{ wB0 with current := 0 }, { wB1 with current := 50 }] }

theorem selectTargets_explicit_counterexample :
    (selectTargets [wDebtC3] none Strategy.standard none (some ["b-1", "b-0"])
        (fun l => l)).map Block.id = ["b-0", "b-1"] ∧
    ¬ ((selectTargets [wDebtC3] none Strategy.standard none (some ["b-1", "b-0"])
        (fun l => l)).map Block.id = ["b-1", "b-0"]) ∧
    currentOf (payBlocks ⟨[wDebtC3], 0⟩ 150 ["b-1", "b-0"] (fun l => l)).debts "b-1" = 50 ∧
    currentOf (payBlocks ⟨[wDebtC3], 0⟩ 150 ["b-1", "b-0"] (fun l => l)).debts "b-0" = 0 ∧
    ¬ (currentOf (payBlocks ⟨[wDebtC3], 0⟩ 150 ["b-1", "b-0"] (fun l => l)).debts "b-1"
        = 0) := by
  have hsel : (selectTargets [wDebtC3] none Strategy.standard none (some ["b-1", "b-0"])
      (fun l => l)).map Block.id = ["b-0", "b-1"] := by
    simp [selectTargets, filterQ, wDebtC3, wB0, wB1,
      show (0:ℚ) < 100 from by norm_num]
  have hrun : (payBlocks ⟨[wDebtC3], 0⟩ 150 ["b-1", "b-0"] (fun l => l)).debts
      = [wDebtC3After] := by
    simp [wDebtC3After, payBlocks, makePayment, remainingDebt, totalDebt, totalPaid, sumBy,
      selectTargets, filterQ, payLoop, payStep, findBlock?, findQ, updateBlock,
      updateBlockInList, updateDebt, creditPrincipal, wDebtC3, wB0, wB1,
      show (0:ℚ) < 100 from by norm_num,
      show ¬((200:ℚ) ≤ 0) from by norm_num,
      show ¬((150:ℚ) ≤ 0) from by norm_num,
      show ¬((50:ℚ) ≤ 0) from by norm_num,
      show min (100:ℚ) 150 = 100 from by norm_num,
      show (100:ℚ) - 100 = 0 from by norm_num,
      show (150:ℚ) - 100 = 50 from by norm_num,
      show min (100:ℚ) 50 = 50 from by norm_num,
      show (100:ℚ) - 50 = 50 from by norm_num,
      show (50:ℚ) - 50 = 0 from by norm_num,
      show (0:ℚ) + 100 = 100 from by norm_num,
      show (100:ℚ) + 50 = 150 from by norm_num]
  refine ⟨hsel, ?_, ?_, ?_, ?_⟩
  · rw [hsel]
    simp
  · rw [hrun]
    simp [currentOf, findBlock?, findQ, wDebtC3After, wDebtC3, wB0, wB1]
  · rw [hrun]
    simp [currentOf, findBlock?, findQ, wDebtC3After, wDebtC3, wB0, wB1]
  · rw [hrun]
    simp [currentOf, findBlock?, findQ, wDebtC3After, wDebtC3, wB0, wB1]

/-- The per-block replacement function of `applyWriteDown`. -/
def awdFun (assoc : List (String × ℚ)) (b : Block) : Block :=
  match findQ (fun p => p.1 = b.id) assoc with
  | some p => { b with current := p.2 }
  | none => b

theorem applyWriteDown_eq_map (assoc : List (String × ℚ)) (blocks : List Block) :
    applyWriteDown assoc blocks = blocks.map (awdFun assoc) := rfl

theorem awdFun_id (assoc : List (String × ℚ)) (b : Block) : (awdFun assoc b).id = b.id := by
  rcases hq : findQ (fun p => p.1 = b.id) assoc with _ | p <;> simp [awdFun, hq]

theorem zip_greedy_lookup :
    ∀ (sel : List Block) (rem : ℚ) (x : String) (p : String × ℚ),
    findQ (fun p => p.1 = x) (writeDownAssoc sel rem) = some p →
    0 ≤ rem → (∀ bs ∈ sel, 0 ≤ bs.current) →
    ∃ bs ∈ sel, bs.id = x ∧ p.1 = bs.id ∧ 0 ≤ p.2 ∧ p.2 ≤ bs.current
  | [], rem, x, p, h, _, _ => by simp [writeDownAssoc, findQ] at h
  | bs :: sel', rem, x, p, h, hrem, hpos => by
    have hc0 : 0 ≤ bs.current := hpos bs (List.mem_cons_self _ _)
    have hwda : writeDownAssoc (bs :: sel') rem
        = (bs.id, bs.current - min bs.current rem)
          :: writeDownAssoc sel' (rem - min bs.current rem) := by
      simp [writeDownAssoc, greedyWriteDown]
    rw [hwda] at h
    by_cases hx : bs.id = x
    · simp only [findQ, if_pos hx] at h
      have hp := Option.some_inj.mp h
      subst hp
      refine ⟨bs, List.mem_cons_self _ _, hx, rfl, ?_, ?_⟩
      · have := min_le_left bs.current rem
        simp only []
        linarith
      · have : 0 ≤ min bs.current rem := le_min hc0 hrem
        simp only []
        linarith
    · simp only [findQ, if_neg hx] at h
      have hrem' : 0 ≤ rem - min bs.current rem := by
        have := min_le_right bs.current rem
        linarith
      rcases zip_greedy_lookup sel' (rem - min bs.current rem) x p h hrem'
        (fun b hb => hpos b (List.mem_cons_of_mem _ hb)) with ⟨bs', hm, h1, h2, h3, h4⟩
      exact ⟨bs', List.mem_cons_of_mem _ hm, h1, h2, h3, h4⟩

theorem awdFun_spec {blocks sel : List Block} {rem : ℚ} {b : Block}
    (hnd : (blocks.map Block.id).Nodup)
    (hsel : ∀ bs ∈ sel, findQ (fun x => x.id = bs.id) blocks = some bs)
    (hrem : 0 ≤ rem) (hpos : ∀ bs ∈ sel, 0 ≤ bs.current)
    (htype : ∀ bs ∈ sel, bs.type = BlockType.interest)
    (hb : b ∈ blocks) :
    (awdFun (writeDownAssoc sel rem) b).id = b.id ∧
    (awdFun (writeDownAssoc sel rem) b).debtId = b.debtId ∧
    (awdFun (writeDownAssoc sel rem) b).max = b.max ∧
    (awdFun (writeDownAssoc sel rem) b).color = b.color ∧
    (awdFun (writeDownAssoc sel rem) b).type = b.type ∧
    (awdFun (writeDownAssoc sel rem) b).current ≤ b.current ∧
    (0 ≤ b.current → 0 ≤ (awdFun (writeDownAssoc sel rem) b).current) ∧
    (b.type = BlockType.principal → awdFun (writeDownAssoc sel rem) b = b) := by
  rcases hq : findQ (fun p => p.1 = b.id) (writeDownAssoc sel rem) with _ | p
  · have hval : awdFun (writeDownAssoc sel rem) b = b := by
      simp [awdFun, hq]
    rw [hval]
    exact ⟨rfl, rfl, rfl, rfl, rfl, le_refl _, fun h => h, fun _ => rfl⟩
  · rcases zip_greedy_lookup sel rem b.id p hq hrem hpos with ⟨bs, hm, hbsid, hp1, hp2, hp3⟩
    have hbb : bs = b := by
      have h1 := hsel bs hm
      rw [hbsid] at h1
      have h2 := nodup_findQ_unique hnd hb
      rw [h1] at h2
      exact Option.some_inj.mp h2
    subst hbb
    have hval : awdFun (writeDownAssoc sel rem) bs = { bs with current := p.2 } := by
      simp [awdFun, hq]
    rw [hval]
    refine ⟨rfl, rfl, rfl, rfl, rfl, hp3, fun _ => hp2, ?_⟩
    intro hbt
    rw [htype bs hm] at hbt
    exact absurd hbt (by simp)

theorem reduceInterestBlocks_WF_parts (d : Debt) (amount : ℚ) (did : String)
    (hnd : (d.blocks.map Block.id).Nodup) (hrem : 0 ≤ amount)
    (hbw : ∀ b ∈ d.blocks, BlockWF did b) :
    (∀ b' ∈ (reduceInterestBlocks d amount).blocks, BlockWF did b') ∧
    principalGap (reduceInterestBlocks d amount) = principalGap d ∧
    principalMaxSum (reduceInterestBlocks d amount) = principalMaxSum d ∧
    (reduceInterestBlocks d amount).blocks.map Block.id = d.blocks.map Block.id := by
  have hchar := reduceInterestBlocks_char d amount hnd hrem
  have hsel := sortedActiveInterest_findQ hnd
  have hposS : ∀ bs ∈ sortedActiveInterest d, 0 ≤ bs.current :=
    fun bs hbs => (sortedActiveInterest_mem hbs).2.2.le
  have htypeS : ∀ bs ∈ sortedActiveInterest d, bs.type = BlockType.interest :=
    fun bs hbs => (sortedActiveInterest_mem hbs).2.1
  refine ⟨?_, ?_, ?_, ?_⟩
  · intro b' hb'
    rw [hchar, applyWriteDown_eq_map] at hb'
    rcases List.mem_map.mp hb' with ⟨b, hb, rfl⟩
    rcases awdFun_spec hnd hsel hrem hposS htypeS hb with
      ⟨hid, hdid2, hmax, hcolor, htype, hle, hnn, hpr⟩
    rcases hbw b hb with ⟨h1, h2, h3⟩
    refine ⟨hnn h1, ?_, ?_⟩
    · rw [hmax]
      exact le_trans hle h2
    · rw [hdid2]
      exact h3
  · simp only [principalGap]
    rw [hchar, applyWriteDown_eq_map, sumBy_map]
    apply sumBy_congr
    intro b hb
    rcases awdFun_spec hnd hsel hrem hposS htypeS hb with
      ⟨hid, hdid2, hmax, hcolor, htype, hle, hnn, hpr⟩
    by_cases ht : b.type = BlockType.principal
    · rw [hpr ht]
    · have ht' : ¬ ((awdFun (writeDownAssoc (sortedActiveInterest d) amount) b).type
          = BlockType.principal) := by
        rw [htype]
        exact ht
      rw [if_neg ht', if_neg ht]
  · simp only [principalMaxSum]
    rw [hchar, applyWriteDown_eq_map, sumBy_map]
    apply sumBy_congr
    intro b hb
    rcases awdFun_spec hnd hsel hrem hposS htypeS hb with
      ⟨hid, hdid2, hmax, hcolor, htype, hle, hnn, hpr⟩
    by_cases ht : b.type = BlockType.principal
    · rw [hpr ht]
    · have ht' : ¬ ((awdFun (writeDownAssoc (sortedActiveInterest d) amount) b).type
          = BlockType.principal) := by
        rw [htype]
        exact ht
      rw [if_neg ht', if_neg ht]
  · rw [hchar, applyWriteDown_eq_map, List.map_map]
    apply List.map_congr_left
    intro b _
    exact awdFun_id _ b

theorem creditPrincipal_WF_parts (d : Debt) (damage : ℚ) (did : String)
    (hnd : (d.blocks.map Block.id).Nodup)
    (hbw : ∀ b ∈ d.blocks, BlockWF did b)
    (_hdam : 0 ≤ damage) :
    (∀ b' ∈ (creditPrincipal d damage).blocks, BlockWF did b') ∧
    principalGap (creditPrincipal d damage) = principalGap d ∧
    principalMaxSum (creditPrincipal d damage) = principalMaxSum d ∧
    (creditPrincipal d damage).blocks.map Block.id = d.blocks.map Block.id ∧
    (creditPrincipal d damage).paid = d.paid + damage ∧
    (creditPrincipal d damage).id = d.id ∧
    (creditPrincipal d damage).name = d.name ∧
    (creditPrincipal d damage).amount = d.amount ∧
    (creditPrincipal d damage).interestRate = d.interestRate ∧
    (creditPrincipal d damage).color = d.color := by
  rw [creditPrincipal]
  by_cases hred : 0 < damage * (d.interestRate / 100)
  · simp only [if_pos hred]
    have hparts := reduceInterestBlocks_WF_parts { d with paid := d.paid + damage }
      (damage * (d.interestRate / 100)) did hnd hred.le hbw
    exact ⟨hparts.1, hparts.2.1, hparts.2.2.1, hparts.2.2.2,
      by trivial, by trivial, by trivial, by trivial, by trivial, by trivial⟩
  · simp only [if_neg hred]
    exact ⟨hbw, by trivial, by trivial, by trivial, by trivial, by trivial, by trivial,
      by trivial, by trivial, by trivial⟩

theorem reduceLoop_map_id : ∀ (ids : List String) (blocks : List Block) (rem : ℚ),
    (reduceLoop blocks ids rem).map Block.id = blocks.map Block.id
  | [], blocks, rem => by simp [reduceLoop]
  | bid :: rest, blocks, rem => by
    by_cases h0 : rem ≤ 0
    · simp only [reduceLoop, if_pos h0]
    · rcases hq : findQ (fun b => b.id = bid) blocks with _ | b
      · simp only [reduceLoop, if_neg h0, hq]
      · by_cases hs : b.current - min b.current rem ≤ 0
        · simp only [reduceLoop, if_neg h0, hq, if_pos hs]
          rw [reduceLoop_map_id rest, updateBlockInList_map_id]
          intro x
          rfl
        · simp only [reduceLoop, if_neg h0, hq, if_neg hs]
          rw [updateBlockInList_map_id]
          intro x
          rfl

theorem reduceInterestBlocks_map_id (d : Debt) (a : ℚ) :
    (reduceInterestBlocks d a).blocks.map Block.id = d.blocks.map Block.id := by
  rw [reduceInterestBlocks_def]
  exact reduceLoop_map_id _ _ _

theorem creditPrincipal_map_id (d : Debt) (dmg : ℚ) :
    (creditPrincipal d dmg).blocks.map Block.id = d.blocks.map Block.id := by
  rw [creditPrincipal]
  by_cases h : 0 < dmg * (d.interestRate / 100)
  · simp only [if_pos h]
    exact reduceInterestBlocks_map_id _ _
  · simp only [if_neg h]

theorem updateDebt_map_id {debts : List Debt} {did : String} {g : Debt → Debt}
    (hg : ∀ d, (g d).id = d.id) :
    (updateDebt debts did g).map Debt.id = debts.map Debt.id := by
  induction debts with
  | nil => simp [updateDebt]
  | cons d rest ih =>
    by_cases h : d.id = did
    · simp [updateDebt, h, hg]
    · simp [updateDebt, h, ih]

theorem updateBlock_allBlockIds {debts : List Debt} {bid : String} {f : Block → Block}
    (hf : ∀ b, (f b).id = b.id) :
    allBlockIds (updateBlock debts bid f) = allBlockIds debts := by
  induction debts with
  | nil => simp [updateBlock]
  | cons d rest ih =>
    rcases hq : findQ (fun b => b.id = bid) d.blocks with _ | b
    · simp only [updateBlock, hq, allBlockIds_cons, ih]
    · simp only [updateBlock, hq, allBlockIds_cons]
      simp only [updateBlockInList_map_id hf]

theorem updateDebt_allBlockIds {debts : List Debt} {did : String} {g : Debt → Debt}
    (hg : ∀ d, (g d).blocks.map Block.id = d.blocks.map Block.id) :
    allBlockIds (updateDebt debts did g) = allBlockIds debts := by
  induction debts with
  | nil => simp [updateDebt]
  | cons d rest ih =>
    by_cases h : d.id = did
    · simp only [updateDebt, if_pos h, allBlockIds_cons, hg]
    · simp only [updateDebt, if_neg h, allBlockIds_cons, ih]

theorem nodup_mem_id_inj {debts : List Debt} {a b : Debt}
    (hnd : (debts.map Debt.id).Nodup) (ha : a ∈ debts) (hb : b ∈ debts)
    (hid : a.id = b.id) : a = b := by
  have h1 := nodup_findQ_unique_debt hnd ha
  have h2 := nodup_findQ_unique_debt hnd hb
  rw [hid] at h1
  rw [h1] at h2
  exact Option.some_inj.mp h2

theorem nodup_mem_block_id_inj {blocks : List Block} {a b : Block}
    (hnd : (blocks.map Block.id).Nodup) (ha : a ∈ blocks) (hb : b ∈ blocks)
    (hid : a.id = b.id) : a = b := by
  have h1 := nodup_findQ_unique hnd ha
  have h2 := nodup_findQ_unique hnd hb
  rw [hid] at h1
  rw [h1] at h2
  exact Option.some_inj.mp h2

theorem principalGap_blocks (d : Debt) (bs : List Block) :
    principalGap { d with blocks := bs }
      = sumBy bs (fun b => if b.type = BlockType.principal then b.max - b.current else 0) := rfl

theorem principalMaxSum_blocks (d : Debt) (bs : List Block) :
    principalMaxSum { d with blocks := bs }
      = sumBy bs (fun b => if b.type = BlockType.principal then b.max else 0) := rfl

theorem payStep_LedgerWF (debts : List Debt) (bid : String) (amountLeft : ℚ)
    (hWF : LedgerWF debts) (hA : 0 < amountLeft) :
    LedgerWF (payStep debts amountLeft bid).1 := by
  rcases hfb : findBlock? debts bid with _ | block
  · simp only [payStep, hfb]
    exact hWF
  rcases findBlock?_some_mem hfb with ⟨own, hown_mem, hblock_mem, hbid⟩
  have hownWF := hWF.1 own hown_mem
  have hdid : block.debtId = own.id := (hownWF.1 block hblock_mem).2.2
  have hdam0 : 0 ≤ min block.current amountLeft :=
    le_min (hownWF.1 block hblock_mem).1 hA.le
  have hdamle : min block.current amountLeft ≤ block.current := min_le_left _ _
  have hblock_eq : ∀ d₀ ∈ debts, ∀ b ∈ d₀.blocks, b.id = bid → b = block := by
    intro d₀ hd₀ b hb hbeq
    have h1 := findBlock?_of_mem hWF.2.2 hd₀ hb
    rw [hbeq, hfb] at h1
    exact (Option.some_inj.mp h1).symm
  have hFWF : ∀ d₀ ∈ debts,
      (∀ b' ∈ d₀.blocks.map (fun b => if b.id = bid
          then { b with current := b.current - min block.current amountLeft } else b),
        BlockWF d₀.id b') ∧
      principalMaxSum { d₀ with blocks := d₀.blocks.map (fun b => if b.id = bid
          then { b with current := b.current - min block.current amountLeft } else b) }
        = principalMaxSum d₀ := by
    intro d₀ hd₀
    have hd₀WF := hWF.1 d₀ hd₀
    have hd₀nd : (d₀.blocks.map Block.id).Nodup := blocks_nodup_of_ledger hWF.2.2 hd₀
    constructor
    · intro b' hb'
      rcases List.mem_map.mp hb' with ⟨b, hb, rfl⟩
      by_cases h : b.id = bid
      · have hbeq := hblock_eq d₀ hd₀ b hb h
        subst hbeq
        rw [if_pos h]
        rcases hd₀WF.1 b hb with ⟨h1, h2, h3⟩
        refine ⟨?_, ?_, h3⟩
        · show 0 ≤ b.current - min b.current amountLeft
          have := min_le_left b.current amountLeft
          linarith
        · show b.current - min b.current amountLeft ≤ b.max
          have h0 : 0 ≤ min b.current amountLeft := le_min h1 hA.le
          linarith
      · simp only [if_neg h]
        exact hd₀WF.1 b hb
    · by_cases hhas : ∃ b ∈ d₀.blocks, b.id = bid
      · rcases hhas with ⟨b, hb, hbeq⟩
        have hbeq' := hblock_eq d₀ hd₀ b hb hbeq
        subst hbeq'
        rw [principalMaxSum_blocks, sumBy_map_ite hd₀nd hb hbeq]
        simp [principalMaxSum]
      · push_neg at hhas
        rw [blocks_map_ite_id hhas]
  by_cases htype : block.type = BlockType.principal
  · have hstep : (payStep debts amountLeft bid).1
        = updateDebt
            (updateBlock debts bid
              (fun b => { b with current := b.current - min block.current amountLeft }))
            block.debtId (fun d => creditPrincipal d (min block.current amountLeft)) := by
      simp only [payStep, hfb, htype, if_pos]
    have hupd : updateBlock debts bid
        (fun b => { b with current := b.current - min block.current amountLeft })
        = debts.map (fun d => { d with blocks := d.blocks.map (fun b =>
            if b.id = bid
            then { b with current := b.current - min block.current amountLeft } else b) }) :=
      updateBlock_eq_map hWF.2.2
    have hids1 : (updateBlock debts bid
        (fun b => { b with current := b.current - min block.current amountLeft })).map
          Debt.id = debts.map Debt.id := updateBlock_map_debtId _ _ _
    have hnd1 : ((updateBlock debts bid
        (fun b => { b with current := b.current - min block.current amountLeft })).map
          Debt.id).Nodup := by
      rw [hids1]
      exact hWF.2.1
    have hupdD : updateDebt
        (updateBlock debts bid
          (fun b => { b with current := b.current - min block.current amountLeft }))
        block.debtId (fun d => creditPrincipal d (min block.current amountLeft))
        = (updateBlock debts bid
            (fun b => { b with current := b.current - min block.current amountLeft })).map
            (fun d => if d.id = block.debtId
              then creditPrincipal d (min block.current amountLeft) else d) :=
      updateDebt_eq_map hnd1
    rw [hstep]
    refine ⟨?_, ?_, ?_⟩
    · intro d' hd'
      rw [hupdD, hupd, List.map_map] at hd'
      rcases List.mem_map.mp hd' with ⟨d₀, hd₀, rfl⟩
      have hd₀WF := hWF.1 d₀ hd₀
      have hd₀nd : (d₀.blocks.map Block.id).Nodup := blocks_nodup_of_ledger hWF.2.2 hd₀
      have hFd₀ := hFWF d₀ hd₀
      simp only [Function.comp_apply]
      by_cases hid : ({ d₀ with blocks := d₀.blocks.map (fun b => if b.id = bid
          then { b with current := b.current - min block.current amountLeft } else b) } : Debt).id
          = block.debtId
      · rw [if_pos hid]
        have hid' : d₀.id = own.id := by
          rw [← hdid]
          exact hid
        have hd₀own : d₀ = own := nodup_mem_id_inj hWF.2.1 hd₀ hown_mem hid'
        subst hd₀own
        have hndF : ((d₀.blocks.map (fun b => if b.id = bid
            then { b with current := b.current - min block.current amountLeft } else b)).map
              Block.id).Nodup := by
          rw [List.map_map]
          rw [show (Block.id ∘ fun b => if b.id = bid
              then { b with current := b.current - min block.current amountLeft } else b)
              = Block.id from by
            funext b
            by_cases h : b.id = bid <;> simp [h]]
          exact hd₀nd
        have hcredit := creditPrincipal_WF_parts
          { d₀ with blocks := d₀.blocks.map (fun b => if b.id = bid
              then { b with current := b.current - min block.current amountLeft } else b) }
          (min block.current amountLeft) d₀.id hndF hFd₀.1 hdam0
        refine ⟨?_, ?_, ?_⟩
        · intro b' hb'
          have := hcredit.1 b' hb'
          rwa [show (creditPrincipal { d₀ with blocks := d₀.blocks.map (fun b =>
              if b.id = bid
              then { b with current := b.current - min block.current amountLeft } else b) }
              (min block.current amountLeft)).id = d₀.id from
            creditPrincipal_id _ _]
        · rw [hcredit.2.1, hcredit.2.2.2.2.1]
          have hgapF : principalGap { d₀ with blocks := d₀.blocks.map (fun b =>
              if b.id = bid
              then { b with current := b.current - min block.current amountLeft } else b) }
              = principalGap d₀ + min block.current amountLeft := by
            rw [principalGap_blocks, sumBy_map_ite hd₀nd hblock_mem hbid]
            simp only [principalGap, htype, if_pos]
            ring
          rw [hgapF, hd₀WF.2.1]
        · rw [hcredit.2.2.1, hFd₀.2, hd₀WF.2.2, creditPrincipal_WF_parts
            { d₀ with blocks := d₀.blocks.map (fun b => if b.id = bid
              then { b with current := b.current - min block.current amountLeft } else b) }
            (min block.current amountLeft) d₀.id hndF hFd₀.1 hdam0 |>.2.2.2.2.2.2.2.1]
      · rw [if_neg hid]
        refine ⟨hFd₀.1, ?_, hFd₀.2.trans hd₀WF.2.2⟩
        have hnohit : ∀ b ∈ d₀.blocks, b.id ≠ bid := by
          intro b hb hbeq
          have hbeq' := hblock_eq d₀ hd₀ b hb hbeq
          subst hbeq'
          apply hid
          show d₀.id = b.debtId
          rw [(hWF.1 d₀ hd₀).1 b hb |>.2.2]
        rw [show principalGap { d₀ with blocks := d₀.blocks.map (fun b => if b.id = bid
            then { b with current := b.current - min block.current amountLeft } else b) }
            = principalGap d₀ from by
          rw [blocks_map_ite_id hnohit]]
        exact hd₀WF.2.1
    · rw [updateDebt_map_id (fun d => by
        by_cases h : d.id = block.debtId <;> simp [h, creditPrincipal_id]), hids1]
      exact hWF.2.1
    · rw [updateDebt_allBlockIds (fun d => creditPrincipal_map_id _ _),
        updateBlock_allBlockIds
          (f := fun b => { b with current := b.current - min block.current amountLeft })
          (fun b => rfl)]
      exact hWF.2.2
  · have hstep : (payStep debts amountLeft bid).1
        = updateBlock debts bid
            (fun b => { b with current := b.current - min block.current amountLeft }) := by
      simp only [payStep, hfb, if_neg htype]
    rw [hstep]
    refine ⟨?_, ?_, ?_⟩
    · intro d' hd'
      rw [updateBlock_eq_map hWF.2.2] at hd'
      rcases List.mem_map.mp hd' with ⟨d₀, hd₀, rfl⟩
      have hd₀WF := hWF.1 d₀ hd₀
      have hd₀nd : (d₀.blocks.map Block.id).Nodup := blocks_nodup_of_ledger hWF.2.2 hd₀
      have hFd₀ := hFWF d₀ hd₀
      refine ⟨hFd₀.1, ?_, hFd₀.2.trans hd₀WF.2.2⟩
      by_cases hhas : ∃ b ∈ d₀.blocks, b.id = bid
      · rcases hhas with ⟨b, hb, hbeq⟩
        have hbeq' := hblock_eq d₀ hd₀ b hb hbeq
        subst hbeq'
        rw [show principalGap { d₀ with blocks := d₀.blocks.map (fun x => if x.id = bid
            then { x with current := x.current - min b.current amountLeft } else x) }
            = principalGap d₀ from by
          rw [principalGap_blocks, sumBy_map_ite hd₀nd hb hbeq]
          have hnp : ¬ (b.type = BlockType.principal) := htype
          simp [hnp, principalGap]]
        exact hd₀WF.2.1
      · push_neg at hhas
        rw [show principalGap { d₀ with blocks := d₀.blocks.map (fun x => if x.id = bid
            then { x with current := x.current - min block.current amountLeft } else x) }
            = principalGap d₀ from by
          rw [blocks_map_ite_id hhas]]
        exact hd₀WF.2.1
    · rw [updateBlock_map_debtId]
      exact hWF.2.1
    · rw [updateBlock_allBlockIds
          (f := fun b => { b with current := b.current - min block.current amountLeft })
          (fun b => rfl)]
      exact hWF.2.2

theorem payLoop_LedgerWF (targets : List String) (debts : List Debt) (amountLeft : ℚ)
    (hWF : LedgerWF debts) : LedgerWF (payLoop debts amountLeft targets).1 := by
  induction targets generalizing debts amountLeft with
  | nil => exact hWF
  | cons bid rest ih =>
    simp only [payLoop]
    by_cases hle : amountLeft ≤ 0
    · rw [if_pos hle]
      exact hWF
    · rw [if_neg hle]
      rcases hfb : findBlock? debts bid with _ | block
      · exact hWF
      · have hstepWF := payStep_LedgerWF debts bid amountLeft hWF (lt_of_not_le hle)
        show LedgerWF
          ((if block.current - min block.current amountLeft ≤ 0 then
              payLoop (payStep debts amountLeft bid).1 (payStep debts amountLeft bid).2 rest
            else payStep debts amountLeft bid)).1
        by_cases hsh : block.current - min block.current amountLeft ≤ 0
        · rw [if_pos hsh]
          exact ih _ _ hstepWF
        · rw [if_neg hsh]
          exact hstepWF

/-- The two data-model invariants named by the specification: every block has
`0 ≤ current ≤ max`, and every debt's principal gap Σ(max − current) equals its
`paid` field. -/
def DataInv (debts : List Debt) : Prop :=
  ∀ d ∈ debts, (∀ b ∈ d.blocks, 0 ≤ b.current ∧ b.current ≤ b.max) ∧ principalGap d = d.paid

theorem LedgerWF_DataInv {debts : List Debt} (h : LedgerWF debts) : DataInv debts := by
  intro d hd
  exact ⟨fun b hb => ⟨(h.1 d hd).1 b hb |>.1, (h.1 d hd).1 b hb |>.2.1⟩, (h.1 d hd).2.1⟩

theorem sumBy_zero {α : Type*} (l : List α) : sumBy l (fun _ => (0 : ℚ)) = 0 := by
  induction l with
  | nil => rfl
  | cons a l ih => simp [sumBy_cons, ih]

theorem principalGap_eq_zero {d : Debt} (h : ∀ b ∈ d.blocks, b.current = b.max) :
    principalGap d = 0 := by
  have h' : ∀ b ∈ d.blocks,
      (if b.type = BlockType.principal then b.max - b.current else 0)
        = (fun _ : Block => (0 : ℚ)) b := by
    intro b hb
    by_cases ht : b.type = BlockType.principal <;> simp [ht, h b hb]
  rw [principalGap, sumBy_congr h', sumBy_zero]

theorem mkDebtBlocks_bounds (did color : String) (amount rate : ℚ) :
    ∀ b ∈ mkDebtBlocks did color amount rate, b.current = b.max ∧ 0 < b.max := by
  intro b hb
  simp only [mkDebtBlocks] at hb
  rcases List.mem_append.mp hb with h | h
  · rcases principalBlocksFrom_fields did color 0 _ b h with ⟨_, _, h3, h4⟩
    exact ⟨h3, (chunkSizes_mem _ _ h4).1⟩
  · rcases interestBlocksFrom_fields did _ _ b h with ⟨_, _, h3, h4⟩
    exact ⟨h3, (chunkSizes_mem _ _ h4).1⟩

theorem addDebt_DataInv (s : GameState) (nid name : String) (amount rate : ℚ)
    (h : DataInv s.debts) : DataInv (addDebt s nid name amount rate).debts := by
  intro d hd
  simp only [addDebt] at hd
  rcases List.mem_append.mp hd with hold | hnew
  · exact h d hold
  · have hd' := List.mem_singleton.mp hnew
    subst hd'
    have hbl := mkDebtBlocks_bounds nid (COLORS.getD (s.debts.length % COLORS.length) "#ccc")
      amount rate
    refine ⟨?_, ?_⟩
    · intro b hb
      rcases hbl b hb with ⟨h1, h2⟩
      constructor
      · rw [h1]; exact h2.le
      · rw [h1]
    · rw [principalGap_eq_zero (fun b hb => (hbl b hb).1)]

theorem makePayment_LedgerWF (s : GameState) (amount : ℚ) (tdid : Option String)
    (strat : Strategy) (tbid : Option String) (sids : Option (List String))
    (shuffle : List Block → List Block) (h : LedgerWF s.debts) :
    LedgerWF (makePayment s amount tdid strat tbid sids shuffle).debts := by
  rw [makePayment]
  by_cases hg : remainingDebt s.debts ≤ 0
  · rw [if_pos hg]
    exact h
  · rw [if_neg hg]
    exact payLoop_LedgerWF _ _ _ h

theorem resetProgress_DataInv (s : GameState) (h : DataInv s.debts) :
    DataInv (resetProgress s).debts := by
  intro d hd
  simp only [resetProgress] at hd
  rcases List.mem_map.mp hd with ⟨d₀, hd₀, rfl⟩
  refine ⟨?_, ?_⟩
  · intro b hb
    rcases List.mem_map.mp hb with ⟨b₀, hb₀, rfl⟩
    have hb₀WF := (h d₀ hd₀).1 b₀ hb₀
    constructor
    · show (0 : ℚ) ≤ b₀.max
      linarith [hb₀WF.1, hb₀WF.2]
    · show b₀.max ≤ b₀.max
      exact le_refl _
  · rw [principalGap_eq_zero ?_]
    intro b hb
    rcases List.mem_map.mp hb with ⟨b₀, _, rfl⟩
    rfl

/-- A debt with no blocks, used to instantiate invariant-preservation at a
concrete input. -/
def wDebtNil : Debt :=
  { id := "d", name := "n", amount := 0, paid := 0, interestRate := 0,
    color := "#ccc", blocks := [] }

/-- C5: every ledger operation preserves the data-model invariants
`0 ≤ current ≤ max` (each block) and Σ(max − current) over principal blocks =
`paid` (each debt).  `addDebt`, `resetProgress` and `clearDebts` preserve them
from the invariants alone; `makePayment` is stated from a well-formed ledger
(the invariants plus id discipline, which the object-identity of the JS code
gives for free), and `reduceInterestBlocks` from a well-formed single debt. -/
theorem ledger_ops_preserve_invariants :
    (∀ (s : GameState) (nid name : String) (amount rate : ℚ),
      DataInv s.debts → DataInv (addDebt s nid name amount rate).debts)
  ∧ (∀ (s : GameState) (amount : ℚ) (tdid : Option String) (strat : Strategy)
      (tbid : Option String) (sids : Option (List String))
      (shuffle : List Block → List Block),
      LedgerWF s.debts →
        DataInv (makePayment s amount tdid strat tbid sids shuffle).debts)
  ∧ (∀ (d : Debt) (amt : ℚ), (d.blocks.map Block.id).Nodup → 0 ≤ amt →
      (∀ b ∈ d.blocks, BlockWF d.id b) → principalGap d = d.paid →
      (∀ b ∈ (reduceInterestBlocks d amt).blocks, 0 ≤ b.current ∧ b.current ≤ b.max)
      ∧ principalGap (reduceInterestBlocks d amt) = (reduceInterestBlocks d amt).paid)
  ∧ (∀ s : GameState, DataInv s.debts → DataInv (resetProgress s).debts)
  ∧ (∀ s : GameState, DataInv (clearDebts s).debts) := by
  refine ⟨addDebt_DataInv, ?_, ?_, resetProgress_DataInv, ?_⟩
  · intro s amount tdid strat tbid sids shuffle h
    exact LedgerWF_DataInv (makePayment_LedgerWF s amount tdid strat tbid sids shuffle h)
  · intro d amt hnd hrem hbw hgap
    have H := reduceInterestBlocks_WF_parts d amt d.id hnd hrem hbw
    refine ⟨fun b hb => ⟨(H.1 b hb).1, (H.1 b hb).2.1⟩, ?_⟩
    rw [H.2.1]
    exact hgap
  · intro s d hd
    exact absurd hd (List.not_mem_nil d)

/-- Witness for C5: each conjunct applied at a concrete state, hypotheses
discharged by evaluation. -/
theorem ledger_ops_preserve_invariants_witness :
    (DataInv ([] : List Debt)
      ∧ DataInv (addDebt ⟨[], 0⟩ "d1" "car" 150 10).debts)
    ∧ (LedgerWF ([] : List Debt)
      ∧ DataInv (makePayment ⟨[], 0⟩ 50 none Strategy.standard none none
          (fun l => l)).debts)
    ∧ (((wDebtNil.blocks.map Block.id).Nodup ∧ (0 : ℚ) ≤ 0
        ∧ (∀ b ∈ wDebtNil.blocks, BlockWF wDebtNil.id b)
        ∧ principalGap wDebtNil = wDebtNil.paid)
      ∧ ((∀ b ∈ (reduceInterestBlocks wDebtNil 0).blocks,
            0 ≤ b.current ∧ b.current ≤ b.max)
        ∧ principalGap (reduceInterestBlocks wDebtNil 0)
            = (reduceInterestBlocks wDebtNil 0).paid))
    ∧ (DataInv ([] : List Debt) ∧ DataInv (resetProgress ⟨[], 0⟩).debts)
    ∧ DataInv (clearDebts ⟨[], 0⟩).debts := by
  have hD : DataInv ([] : List Debt) := fun d hd => absurd hd (List.not_mem_nil d)
  have hL : LedgerWF ([] : List Debt) :=
    ⟨fun d hd => absurd hd (List.not_mem_nil d), List.nodup_nil, List.nodup_nil⟩
  have hnd : (wDebtNil.blocks.map Block.id).Nodup := List.nodup_nil
  have hbw : ∀ b ∈ wDebtNil.blocks, BlockWF wDebtNil.id b :=
    fun b hb => absurd hb (List.not_mem_nil b)
  have hgap : principalGap wDebtNil = wDebtNil.paid := rfl
  refine ⟨⟨hD, ledger_ops_preserve_invariants.1 _ "d1" "car" 150 10 hD⟩,
    ⟨hL, ledger_ops_preserve_invariants.2.1 _ 50 none Strategy.standard none none
      (fun l => l) hL⟩,
    ⟨⟨hnd, le_refl 0, hbw, hgap⟩,
      ledger_ops_preserve_invariants.2.2.1 wDebtNil 0 hnd (le_refl 0) hbw hgap⟩,
    ⟨hD, ledger_ops_preserve_invariants.2.2.2.1 _ hD⟩,
    ledger_ops_preserve_invariants.2.2.2.2 ⟨[], 0⟩⟩

theorem findQ_congr {α : Type*} {p q : α → Prop} [DecidablePred p] [DecidablePred q]
    {l : List α} (h : ∀ a ∈ l, p a ↔ q a) : findQ p l = findQ q l := by
  induction l with
  | nil => rfl
  | cons a l ih =>
    by_cases hp : p a
    · have hq : q a := (h a (List.mem_cons_self _ _)).mp hp
      simp [findQ, hp, hq]
    · have hq : ¬ q a := fun hqa => hp ((h a (List.mem_cons_self _ _)).mpr hqa)
      simp only [findQ, if_neg hp, if_neg hq]
      exact ih (fun a ha => h a (List.mem_cons_of_mem _ ha))

theorem findQ_blocks_map_head {F : Debt → Debt} {G : Debt → Block → Block} (d : Debt)
    (hFd : (F d).blocks = d.blocks.map (G d))
    (hGd : ∀ b ∈ d.blocks, (G d b).id = b.id) (tid : String) :
    findQ (fun b => b.id = tid) (F d).blocks
      = (findQ (fun b => b.id = tid) d.blocks).map (G d) := by
  rw [hFd, findQ_map]
  congr 1
  apply findQ_congr
  intro b hb
  rw [hGd b hb]

theorem findBlock?_map_none {debts : List Debt} {F : Debt → Debt} {G : Debt → Block → Block}
    (hF : ∀ d ∈ debts, (F d).blocks = d.blocks.map (G d))
    (hG : ∀ d ∈ debts, ∀ b ∈ d.blocks, (G d b).id = b.id) {tid : String}
    (h : findBlock? debts tid = none) :
    findBlock? (debts.map F) tid = none := by
  induction debts with
  | nil => simp [findBlock?]
  | cons d rest ih =>
    rcases hq : findQ (fun b => b.id = tid) d.blocks with _ | b
    · simp only [findBlock?, hq] at h
      have hhead := findQ_blocks_map_head d (hF d (List.mem_cons_self _ _))
        (hG d (List.mem_cons_self _ _)) tid
      rw [hq] at hhead
      simp only [List.map_cons, findBlock?, hhead, Option.map_none]
      exact ih (fun d' hd' => hF d' (List.mem_cons_of_mem _ hd'))
        (fun d' hd' => hG d' (List.mem_cons_of_mem _ hd')) h
    · simp only [findBlock?, hq] at h
      exact absurd h (by simp)

theorem findBlock?_map_some {debts : List Debt} {F : Debt → Debt} {G : Debt → Block → Block}
    (hF : ∀ d ∈ debts, (F d).blocks = d.blocks.map (G d))
    (hG : ∀ d ∈ debts, ∀ b ∈ d.blocks, (G d b).id = b.id) {tid : String} {b : Block}
    (h : findBlock? debts tid = some b) :
    ∃ d ∈ debts, b ∈ d.blocks ∧ findBlock? (debts.map F) tid = some (G d b) := by
  induction debts with
  | nil => simp [findBlock?] at h
  | cons d rest ih =>
    have hhead := findQ_blocks_map_head d (hF d (List.mem_cons_self _ _))
      (hG d (List.mem_cons_self _ _)) tid
    rcases hq : findQ (fun b => b.id = tid) d.blocks with _ | b'
    · simp only [findBlock?, hq] at h
      rcases ih (fun d' hd' => hF d' (List.mem_cons_of_mem _ hd'))
        (fun d' hd' => hG d' (List.mem_cons_of_mem _ hd')) h with ⟨d', hd', hb', hres⟩
      refine ⟨d', List.mem_cons_of_mem _ hd', hb', ?_⟩
      rw [hq] at hhead
      simp only [List.map_cons, findBlock?, hhead, Option.map_none]
      exact hres
    · simp only [findBlock?, hq] at h
      have hb : b' = b := Option.some_inj.mp h
      subst hb
      refine ⟨d, List.mem_cons_self _ _, (findQ_some hq).1, ?_⟩
      rw [hq] at hhead
      simp only [List.map_cons, findBlock?, hhead]
      rfl

theorem currentOf_nonneg {debts : List Debt} (hWF : LedgerWF debts) (tid : String) :
    0 ≤ currentOf debts tid := by
  rw [currentOf]
  rcases hfb : findBlock? debts tid with _ | b
  · exact le_refl 0
  · rcases findBlock?_some_mem hfb with ⟨d, hd, hb, _⟩
    exact ((hWF.1 d hd).1 b hb).1

theorem sumBy_sublist_le {α : Type*} {l₁ l₂ : List α} {f : α → ℚ} (h : l₁.Sublist l₂)
    (hf : ∀ a ∈ l₂, 0 ≤ f a) : sumBy l₁ f ≤ sumBy l₂ f := by
  induction h with
  | slnil => exact le_refl _
  | cons a hsub ih =>
    rw [sumBy_cons]
    have := ih (fun x hx => hf x (List.mem_cons_of_mem _ hx))
    have h0 : 0 ≤ f a := hf a (List.mem_cons_self _ _)
    linarith
  | cons₂ a hsub ih =>
    rw [sumBy_cons, sumBy_cons]
    have := ih (fun x hx => hf x (List.mem_cons_of_mem _ hx))
    linarith

theorem sumBy_subperm_le {α : Type*} {l₁ l₂ : List α} {f : α → ℚ} (h : l₁.Subperm l₂)
    (hf : ∀ a ∈ l₂, 0 ≤ f a) : sumBy l₁ f ≤ sumBy l₂ f := by
  rcases h with ⟨l, hperm, hsub⟩
  rw [← sumBy_perm hperm f]
  exact sumBy_sublist_le hsub hf

theorem payStep_allBlockIds (debts : List Debt) (amountLeft : ℚ) (bid : String) :
    allBlockIds (payStep debts amountLeft bid).1 = allBlockIds debts := by
  rcases hfb : findBlock? debts bid with _ | block
  · simp only [payStep, hfb]
  · by_cases htype : block.type = BlockType.principal
    · simp only [payStep, hfb, if_pos htype]
      rw [updateDebt_allBlockIds (fun d => creditPrincipal_map_id _ _),
        updateBlock_allBlockIds
          (f := fun b => { b with current := b.current - min block.current amountLeft })
          (fun b => rfl)]
    · simp only [payStep, hfb, if_neg htype]
      rw [updateBlock_allBlockIds
          (f := fun b => { b with current := b.current - min block.current amountLeft })
          (fun b => rfl)]

theorem findBlock?_eq_none_iff {debts : List Debt} {tid : String} :
    findBlock? debts tid = none ↔ tid ∉ allBlockIds debts := by
  rw [findBlock?_eq_none, allBlockIds]
  simp only [List.mem_flatMap, List.mem_map, not_exists, not_and]

theorem payStep_none {debts : List Debt} {amountLeft : ℚ} {bid tid : String}
    (h : findBlock? debts tid = none) :
    findBlock? (payStep debts amountLeft bid).1 tid = none := by
  rw [findBlock?_eq_none_iff, payStep_allBlockIds]
  exact findBlock?_eq_none_iff.mp h

theorem creditPrincipal_blocks_map (d : Debt) (dmg : ℚ)
    (hnd : (d.blocks.map Block.id).Nodup) :
    (creditPrincipal d dmg).blocks = d.blocks.map (fun b =>
      if 0 < dmg * (d.interestRate / 100) then
        awdFun (writeDownAssoc (sortedActiveInterest d) (dmg * (d.interestRate / 100))) b
      else b) := by
  simp only [creditPrincipal]
  by_cases hred : 0 < dmg * (d.interestRate / 100)
  · simp only [if_pos hred]
    rw [reduceInterestBlocks_char { d with paid := d.paid + dmg }
      (dmg * (d.interestRate / 100)) hnd hred.le]
    rfl
  · simp only [if_neg hred]
    exact (List.map_id d.blocks).symm

theorem payStep_track {debts : List Debt} {amountLeft : ℚ} {bid : String}
    (hWF : LedgerWF debts) (hA : 0 < amountLeft) {tid : String} {b' : Block}
    (h : findBlock? debts tid = some b') :
    ∃ b'', findBlock? (payStep debts amountLeft bid).1 tid = some b''
      ∧ b''.id = b'.id ∧ b''.type = b'.type
      ∧ 0 ≤ b''.current ∧ b''.current ≤ b'.current
      ∧ (b'.type = BlockType.principal → b'.id ≠ bid → b''.current = b'.current) := by
  obtain ⟨db', hdb', hb'mem, hb'tid⟩ := findBlock?_some_mem h
  have hb'0 : 0 ≤ b'.current := ((hWF.1 db' hdb').1 b' hb'mem).1
  rcases hfb : findBlock? debts bid with _ | block
  · exact ⟨b', by simp only [payStep, hfb]; exact h, rfl, rfl, hb'0, le_refl _,
      fun _ _ => rfl⟩
  obtain ⟨dbk, hdbk, hbkmem, hbkid⟩ := findBlock?_some_mem hfb
  have hbk0 : 0 ≤ block.current := ((hWF.1 dbk hdbk).1 block hbkmem).1
  have hdam0 : 0 ≤ min block.current amountLeft := le_min hbk0 hA.le
  have hg1id : ∀ b : Block, ((if b.id = bid
      then { b with current := b.current - min block.current amountLeft } else b) : Block).id
      = b.id := by
    intro b
    by_cases hb : b.id = bid <;> simp [hb]
  obtain ⟨d₁, hd₁, hb'd₁, hres1⟩ := findBlock?_map_some
    (F := fun d => { d with blocks := d.blocks.map (fun b => if b.id = bid
      then { b with current := b.current - min block.current amountLeft } else b) })
    (G := fun _ b => if b.id = bid
      then { b with current := b.current - min block.current amountLeft } else b)
    (fun d _ => rfl) (fun d _ b _ => hg1id b) h
  have hres1' : findBlock? (debts.map (fun d => { d with blocks := d.blocks.map (fun b =>
      if b.id = bid
      then { b with current := b.current - min block.current amountLeft } else b) })) tid
      = some (if b'.id = bid
        then { b' with current := b'.current - min block.current amountLeft } else b') := hres1
  set b₁ : Block := if b'.id = bid
    then { b' with current := b'.current - min block.current amountLeft } else b' with hb₁def
  have hb₁props : b₁.type = b'.type ∧ 0 ≤ b₁.current ∧ b₁.current ≤ b'.current
      ∧ (b'.id ≠ bid → b₁ = b') := by
    rw [hb₁def]
    by_cases hhit : b'.id = bid
    · have htb : tid = bid := by rw [← hb'tid, hhit]
      have hbb : b' = block := by
        rw [htb] at h
        exact Option.some_inj.mp (h.symm.trans hfb)
      rw [if_pos hhit]
      refine ⟨rfl, ?_, ?_, fun hne => absurd hhit hne⟩
      · show 0 ≤ b'.current - min block.current amountLeft
        rw [← hbb]
        have := min_le_left b'.current amountLeft
        linarith
      · show b'.current - min block.current amountLeft ≤ b'.current
        linarith [hdam0]
    · rw [if_neg hhit]
      exact ⟨rfl, hb'0, le_refl _, fun _ => rfl⟩
  have hb₁id : b₁.id = b'.id := by
    rw [hb₁def]
    exact hg1id b'
  by_cases htype : block.type = BlockType.principal
  · -- principal: two mutation layers
    have hidsAll : allBlockIds (debts.map (fun d => { d with blocks := d.blocks.map (fun b =>
        if b.id = bid
        then { b with current := b.current - min block.current amountLeft } else b) }))
        = allBlockIds debts := by
      rw [← updateBlock_eq_map hWF.2.2]
      exact updateBlock_allBlockIds
        (f := fun b => { b with current := b.current - min block.current amountLeft })
        (fun b => rfl)
    have hndAll : (allBlockIds (debts.map (fun d => { d with blocks := d.blocks.map (fun b =>
        if b.id = bid
        then { b with current := b.current - min block.current amountLeft } else b) }))).Nodup := by
      rw [hidsAll]
      exact hWF.2.2
    have hnddid : ((debts.map (fun d => { d with blocks := d.blocks.map (fun b =>
        if b.id = bid
        then { b with current := b.current - min block.current amountLeft } else b) })).map
        Debt.id).Nodup := by
      rw [← updateBlock_eq_map hWF.2.2, updateBlock_map_debtId]
      exact hWF.2.1
    have hstep : (payStep debts amountLeft bid).1
        = (debts.map (fun d => { d with blocks := d.blocks.map (fun b => if b.id = bid
            then { b with current := b.current - min block.current amountLeft } else b) })).map
          (fun d => if d.id = block.debtId
            then creditPrincipal d (min block.current amountLeft) else d) := by
      simp only [payStep, hfb, if_pos htype]
      rw [updateBlock_eq_map hWF.2.2]
      exact updateDebt_eq_map hnddid
    have hF₂ : ∀ d ∈ debts.map (fun d => { d with blocks := d.blocks.map (fun b =>
        if b.id = bid
        then { b with current := b.current - min block.current amountLeft } else b) }),
        ((fun d => if d.id = block.debtId
          then creditPrincipal d (min block.current amountLeft) else d) d).blocks
        = d.blocks.map (fun b =>
          if d.id = block.debtId ∧ 0 < min block.current amountLeft * (d.interestRate / 100)
          then awdFun (writeDownAssoc (sortedActiveInterest d)
            (min block.current amountLeft * (d.interestRate / 100))) b
          else b) := by
      intro d hd
      have hndd : (d.blocks.map Block.id).Nodup := blocks_nodup_of_ledger hndAll hd
      by_cases hdid : d.id = block.debtId
      · simp only [if_pos hdid]
        rw [creditPrincipal_blocks_map d _ hndd]
        apply List.map_congr_left
        intro b hb
        by_cases hred : 0 < min block.current amountLeft * (d.interestRate / 100)
        · rw [if_pos hred, if_pos ⟨hdid, hred⟩]
        · have hc : ¬ (d.id = block.debtId
              ∧ 0 < min block.current amountLeft * (d.interestRate / 100)) :=
            fun hc => hred hc.2
          rw [if_neg hred, if_neg hc]
      · have hc : ∀ b : Block, ¬ (d.id = block.debtId
            ∧ 0 < min block.current amountLeft * (d.interestRate / 100)) :=
          fun _ hc => hdid hc.1
        simp only [if_neg hdid, if_neg (hc b')]
        exact (List.map_id d.blocks).symm
    have hG₂ : ∀ d ∈ debts.map (fun d => { d with blocks := d.blocks.map (fun b =>
        if b.id = bid
        then { b with current := b.current - min block.current amountLeft } else b) }),
        ∀ b ∈ d.blocks,
        ((fun (d : Debt) (b : Block) =>
          if d.id = block.debtId ∧ 0 < min block.current amountLeft * (d.interestRate / 100)
          then awdFun (writeDownAssoc (sortedActiveInterest d)
            (min block.current amountLeft * (d.interestRate / 100))) b
          else b) d b).id = b.id := by
      intro d _ b _
      show (if d.id = block.debtId
          ∧ 0 < min block.current amountLeft * (d.interestRate / 100)
        then awdFun (writeDownAssoc (sortedActiveInterest d)
          (min block.current amountLeft * (d.interestRate / 100))) b
        else b).id = b.id
      by_cases hc : d.id = block.debtId
          ∧ 0 < min block.current amountLeft * (d.interestRate / 100)
      · rw [if_pos hc]
        exact awdFun_id _ _
      · rw [if_neg hc]
    obtain ⟨d₂, hd₂, hb₁d₂, hres2⟩ := findBlock?_map_some
      (F := fun d => if d.id = block.debtId
        then creditPrincipal d (min block.current amountLeft) else d)
      (G := fun (d : Debt) (b : Block) =>
        if d.id = block.debtId ∧ 0 < min block.current amountLeft * (d.interestRate / 100)
        then awdFun (writeDownAssoc (sortedActiveInterest d)
          (min block.current amountLeft * (d.interestRate / 100))) b
        else b)
      hF₂ hG₂ hres1'
    have hres2' : findBlock? (payStep debts amountLeft bid).1 tid
        = some (if d₂.id = block.debtId
            ∧ 0 < min block.current amountLeft * (d₂.interestRate / 100)
          then awdFun (writeDownAssoc (sortedActiveInterest d₂)
            (min block.current amountLeft * (d₂.interestRate / 100))) b₁
          else b₁) := by
      rw [hstep]
      exact hres2
    by_cases hc : d₂.id = block.debtId
        ∧ 0 < min block.current amountLeft * (d₂.interestRate / 100)
    · rw [if_pos hc] at hres2'
      have hndd₂ : (d₂.blocks.map Block.id).Nodup := blocks_nodup_of_ledger hndAll hd₂
      have hspec := awdFun_spec hndd₂ (sortedActiveInterest_findQ hndd₂) hc.2.le
        (fun bs hbs => (sortedActiveInterest_mem hbs).2.2.le)
        (fun bs hbs => (sortedActiveInterest_mem hbs).2.1) hb₁d₂
      refine ⟨_, hres2', hspec.1.trans hb₁id, hspec.2.2.2.2.1.trans hb₁props.1, ?_, ?_, ?_⟩
      · exact hspec.2.2.2.2.2.2.1 hb₁props.2.1
      · exact hspec.2.2.2.2.2.1.trans hb₁props.2.2.1
      · intro hp hne
        have hb₁eq : b₁ = b' := hb₁props.2.2.2 hne
        have hfix := hspec.2.2.2.2.2.2.2 (by rw [hb₁eq]; exact hp)
        rw [hfix, hb₁eq]
    · rw [if_neg hc] at hres2'
      refine ⟨_, hres2', hb₁id, hb₁props.1, hb₁props.2.1, hb₁props.2.2.1, ?_⟩
      intro _ hne
      rw [hb₁props.2.2.2 hne]
  · -- interest: one mutation layer
    have hstep : (payStep debts amountLeft bid).1
        = debts.map (fun d => { d with blocks := d.blocks.map (fun b => if b.id = bid
            then { b with current := b.current - min block.current amountLeft } else b) }) := by
      simp only [payStep, hfb, if_neg htype]
      exact updateBlock_eq_map hWF.2.2
    refine ⟨b₁, by rw [hstep]; exact hres1', hb₁id, hb₁props.1, hb₁props.2.1,
      hb₁props.2.2.1, ?_⟩
    intro _ hne
    rw [hb₁props.2.2.2 hne]

theorem payStep_snd {debts : List Debt} {amountLeft : ℚ} {bid : String} {block : Block}
    (hfb : findBlock? debts bid = some block) :
    (payStep debts amountLeft bid).2 = amountLeft - min block.current amountLeft := by
  simp only [payStep, hfb]

/-- The health still standing in the block a candidate id resolves to, counted
only for principal blocks (interest write-downs can deplete interest blocks
before the damage loop reaches them, principal blocks only lose health to
their own loop iteration). -/
def pCurrentOf (debts : List Debt) (tid : String) : ℚ :=
  match findBlock? debts tid with
  | some b => if b.type = BlockType.principal then b.current else 0
  | none => 0

theorem currentOf_payStep_le {debts : List Debt} {amountLeft : ℚ} {bid : String}
    (hWF : LedgerWF debts) (hA : 0 < amountLeft) (tid : String) :
    currentOf (payStep debts amountLeft bid).1 tid ≤ currentOf debts tid := by
  rcases hf : findBlock? debts tid with _ | b'
  · simp only [currentOf]
    rw [payStep_none hf, hf]
  · obtain ⟨b'', hres, _, _, _, hle, _⟩ := payStep_track hWF hA hf
    simp only [currentOf]
    rw [hres, hf]
    exact hle

theorem pCurrentOf_payStep_eq {debts : List Debt} {amountLeft : ℚ} {bid : String}
    (hWF : LedgerWF debts) (hA : 0 < amountLeft) {tid : String} (hne : tid ≠ bid) :
    pCurrentOf (payStep debts amountLeft bid).1 tid = pCurrentOf debts tid := by
  rcases hf : findBlock? debts tid with _ | b'
  · simp only [pCurrentOf]
    rw [payStep_none hf, hf]
  · obtain ⟨b'', hres, hid, htyp, _, _, hp⟩ := payStep_track hWF hA hf
    have hb'tid : b'.id = tid := by
      rcases findBlock?_some_mem hf with ⟨d, _, _, hbid⟩
      exact hbid
    simp only [pCurrentOf]
    rw [hres, hf]
    show (if b''.type = BlockType.principal then b''.current else 0)
      = (if b'.type = BlockType.principal then b'.current else 0)
    rw [htyp]
    by_cases ht : b'.type = BlockType.principal
    · rw [if_pos ht, if_pos ht]
      exact hp ht (by rw [hb'tid]; exact hne)
    · rw [if_neg ht, if_neg ht]

theorem payLoop_spent_bounds (ts : List String) (debts : List Debt) (a : ℚ)
    (hWF : LedgerWF debts) (ha : 0 ≤ a) :
    0 ≤ (payLoop debts a ts).2 ∧ (payLoop debts a ts).2 ≤ a
      ∧ a - (payLoop debts a ts).2 ≤ sumBy ts (fun t => currentOf debts t) := by
  induction ts generalizing debts a with
  | nil =>
    refine ⟨ha, le_refl _, ?_⟩
    rw [sumBy_nil]
    show a - a ≤ 0
    rw [sub_self]
  | cons t rest ih =>
    have hsumnn : 0 ≤ sumBy (t :: rest) (fun t' => currentOf debts t') :=
      sumBy_nonneg (fun t' _ => currentOf_nonneg hWF t')
    simp only [payLoop]
    by_cases hle : a ≤ 0
    · rw [if_pos hle]
      exact ⟨ha, le_refl _, by rw [sub_self]; exact hsumnn⟩
    · rw [if_neg hle]
      have ha' : 0 < a := lt_of_not_le hle
      rcases hfb : findBlock? debts t with _ | block
      · exact ⟨ha, le_refl _, by rw [sub_self]; exact hsumnn⟩
      · have hWF' := payStep_LedgerWF debts t a hWF ha'
        have hsnd : (payStep debts a t).2 = a - min block.current a := payStep_snd hfb
        have hbk0 : 0 ≤ block.current := by
          rcases findBlock?_some_mem hfb with ⟨d, hd, hb, _⟩
          exact ((hWF.1 d hd).1 block hb).1
        have hdam0 : 0 ≤ min block.current a := le_min hbk0 ha
        have hdamle : min block.current a ≤ a := min_le_right _ _
        have hdamlc : min block.current a ≤ block.current := min_le_left _ _
        have hcur : currentOf debts t = block.current := by
          simp only [currentOf, hfb]
        show 0 ≤ ((if block.current - min block.current a ≤ 0 then
              payLoop (payStep debts a t).1 (payStep debts a t).2 rest
            else payStep debts a t)).2
          ∧ ((if block.current - min block.current a ≤ 0 then
              payLoop (payStep debts a t).1 (payStep debts a t).2 rest
            else payStep debts a t)).2 ≤ a
          ∧ a - ((if block.current - min block.current a ≤ 0 then
              payLoop (payStep debts a t).1 (payStep debts a t).2 rest
            else payStep debts a t)).2 ≤ sumBy (t :: rest) (fun t' => currentOf debts t')
        by_cases hsh : block.current - min block.current a ≤ 0
        · rw [if_pos hsh]
          obtain ⟨h0, hle2, hsum⟩ := ih (payStep debts a t).1 (payStep debts a t).2 hWF'
            (by rw [hsnd]; linarith)
          refine ⟨h0, hle2.trans (by rw [hsnd]; linarith), ?_⟩
          have hmono : sumBy rest (fun t' => currentOf (payStep debts a t).1 t')
              ≤ sumBy rest (fun t' => currentOf debts t') :=
            sumBy_le_sumBy (fun t' _ => currentOf_payStep_le hWF ha' t')
          rw [sumBy_cons, hcur]
          linarith [hsnd, hsum, hmono]
        · rw [if_neg hsh]
          refine ⟨by rw [hsnd]; linarith, by rw [hsnd]; linarith, ?_⟩
          rw [hsnd, sumBy_cons, hcur]
          have hrestnn : 0 ≤ sumBy rest (fun t' => currentOf debts t') :=
            sumBy_nonneg (fun t' _ => currentOf_nonneg hWF t')
          linarith

theorem payLoop_complete (ts : List String) (debts : List Debt) (a : ℚ)
    (hWF : LedgerWF debts) (ha : 0 ≤ a) (hnd : ts.Nodup)
    (hres : ∀ t ∈ ts, findBlock? debts t ≠ none)
    (hle : a ≤ sumBy ts (fun t => pCurrentOf debts t)) :
    (payLoop debts a ts).2 = 0 := by
  induction ts generalizing debts a with
  | nil =>
    rw [sumBy_nil] at hle
    exact le_antisymm hle ha
  | cons t rest ih =>
    simp only [payLoop]
    by_cases hle0 : a ≤ 0
    · rw [if_pos hle0]
      exact le_antisymm hle0 ha
    · rw [if_neg hle0]
      have ha' : 0 < a := lt_of_not_le hle0
      rcases hfb : findBlock? debts t with _ | block
      · exact absurd hfb (hres t (List.mem_cons_self _ _))
      · have hWF' := payStep_LedgerWF debts t a hWF ha'
        have hsnd : (payStep debts a t).2 = a - min block.current a := payStep_snd hfb
        have hbk0 : 0 ≤ block.current := by
          rcases findBlock?_some_mem hfb with ⟨d, hd, hb, _⟩
          exact ((hWF.1 d hd).1 block hb).1
        have hdamle : min block.current a ≤ a := min_le_right _ _
        have hdamlc : min block.current a ≤ block.current := min_le_left _ _
        have htnotin : t ∉ rest := (List.nodup_cons.mp hnd).1
        have hsum_pres : sumBy rest (fun t' => pCurrentOf (payStep debts a t).1 t')
            = sumBy rest (fun t' => pCurrentOf debts t') := by
          apply sumBy_congr
          intro t' ht'
          have hne : t' ≠ t := fun hteq => htnotin (hteq ▸ ht')
          exact pCurrentOf_payStep_eq hWF ha' hne
        show ((if block.current - min block.current a ≤ 0 then
            payLoop (payStep debts a t).1 (payStep debts a t).2 rest
          else payStep debts a t)).2 = 0
        by_cases hsh : block.current - min block.current a ≤ 0
        · rw [if_pos hsh]
          apply ih (payStep debts a t).1 (payStep debts a t).2 hWF'
            (by rw [hsnd]; linarith) (List.nodup_cons.mp hnd).2
          · intro t' ht' hnone
            rcases Option.ne_none_iff_exists'.mp (hres t' (List.mem_cons_of_mem _ ht'))
              with ⟨b', hb'⟩
            obtain ⟨b'', hres2, _⟩ := payStep_track hWF ha' hb'
            rw [hres2] at hnone
            exact Option.noConfusion hnone
          · rw [hsum_pres, hsnd]
            rw [sumBy_cons] at hle
            by_cases htp : block.type = BlockType.principal
            · have hpc : pCurrentOf debts t = block.current := by
                simp only [pCurrentOf, hfb, if_pos htp]
              have hdeq : min block.current a = block.current := le_antisymm hdamlc
                (by linarith)
              rw [hdeq]
              rw [hpc] at hle
              linarith
            · have hpc : pCurrentOf debts t = 0 := by
                simp only [pCurrentOf, hfb, if_neg htp]
              rw [hpc] at hle
              have hdam0 : 0 ≤ min block.current a := le_min hbk0 ha'.le
              linarith
        · rw [if_neg hsh]
          rw [hsnd]
          have : min block.current a = a := by
            rcases min_cases block.current a with ⟨heq, _⟩ | ⟨heq, _⟩
            · exfalso
              apply hsh
              rw [heq, sub_self]
            · exact heq
          rw [this, sub_self]

theorem flatMap_filterQ_valid (debts : List Debt) (p : Block → Prop) [DecidablePred p]
    (hnd : (allBlockIds debts).Nodup) :
    (∀ b ∈ debts.flatMap (fun d => filterQ p d.blocks), ∃ d ∈ debts, b ∈ d.blocks)
    ∧ ((debts.flatMap (fun d => filterQ p d.blocks)).map Block.id).Nodup := by
  constructor
  · intro b hb
    rcases List.mem_flatMap.mp hb with ⟨d, hd, hbf⟩
    exact ⟨d, hd, (mem_filterQ.mp hbf).1⟩
  · rw [flatMap_filterQ]
    have hsub : ((filterQ p (debts.flatMap Debt.blocks)).map Block.id).Sublist
        ((debts.flatMap Debt.blocks).map Block.id) := (filterQ_sublist _ _).map _
    apply hsub.nodup
    rw [show (debts.flatMap Debt.blocks).map Block.id = allBlockIds debts from
      (allBlockIds_eq debts).symm]
    exact hnd

theorem standardTargets_valid (debts : List Debt) (tdid : Option String)
    (hWF : LedgerWF debts) :
    (∀ b ∈ standardTargets debts tdid, ∃ d ∈ debts, b ∈ d.blocks)
    ∧ ((standardTargets debts tdid).map Block.id).Nodup := by
  rcases tdid with _ | tid
  · exact flatMap_filterQ_valid debts _ hWF.2.2
  · simp only [standardTargets]
    by_cases hr : tid ≠ "random"
    · rw [if_pos hr]
      rcases hq : findQ (fun d => d.id = tid) debts with _ | debt
      · have hhead : (match findQ (fun d => d.id = tid) debts with
            | some debt => filterQ (fun b => 0 < b.current) debt.blocks
            | none => ([] : List Block)) = [] := by rw [hq]
        rw [hhead]
        exact ⟨fun b hb => absurd hb (List.not_mem_nil b), List.nodup_nil⟩
      · have hhead : (match findQ (fun d => d.id = tid) debts with
            | some debt => filterQ (fun b => 0 < b.current) debt.blocks
            | none => ([] : List Block))
            = filterQ (fun b => 0 < b.current) debt.blocks := by rw [hq]
        rw [hhead]
        have hdm := (findQ_some hq).1
        constructor
        · intro b hb
          exact ⟨debt, hdm, (mem_filterQ.mp hb).1⟩
        · exact ((filterQ_sublist _ _).map Block.id).nodup
            (blocks_nodup_of_ledger hWF.2.2 hdm)
    · rw [if_neg hr]
      exact flatMap_filterQ_valid debts _ hWF.2.2

theorem randomCandidates_valid (debts : List Debt) (tdid : Option String)
    (hWF : LedgerWF debts) :
    (∀ b ∈ randomCandidates debts tdid, ∃ d ∈ debts, b ∈ d.blocks)
    ∧ ((randomCandidates debts tdid).map Block.id).Nodup := by
  rcases tdid with _ | tid
  · exact flatMap_filterQ_valid debts _ hWF.2.2
  · simp only [randomCandidates]
    rcases hq : findQ (fun d => d.id = tid) debts with _ | debt
    · have hhead : (match findQ (fun d => d.id = tid) debts with
          | some debt => filterQ (fun b => 0 < b.current) debt.blocks
          | none => ([] : List Block)) = [] := by rw [hq]
      rw [hhead]
      exact ⟨fun b hb => absurd hb (List.not_mem_nil b), List.nodup_nil⟩
    · have hhead : (match findQ (fun d => d.id = tid) debts with
          | some debt => filterQ (fun b => 0 < b.current) debt.blocks
          | none => ([] : List Block))
          = filterQ (fun b => 0 < b.current) debt.blocks := by rw [hq]
      rw [hhead]
      have hdm := (findQ_some hq).1
      constructor
      · intro b hb
        exact ⟨debt, hdm, (mem_filterQ.mp hb).1⟩
      · exact ((filterQ_sublist _ _).map Block.id).nodup
          (blocks_nodup_of_ledger hWF.2.2 hdm)

theorem targetedCandidates_valid (debts : List Debt) (tbid : String)
    (hnd : (allBlockIds debts).Nodup) :
    (∀ b ∈ debts.flatMap (fun d =>
        match findQ (fun b => b.id = tbid) d.blocks with
        | some b => if 0 < b.current then [b] else []
        | none => []), ∃ d ∈ debts, b ∈ d.blocks ∧ b.id = tbid)
    ∧ ((debts.flatMap (fun d =>
        match findQ (fun b => b.id = tbid) d.blocks with
        | some b => if 0 < b.current then [b] else []
        | none => [])).map Block.id).Nodup := by
  induction debts with
  | nil => exact ⟨fun b hb => absurd hb (List.not_mem_nil b), List.nodup_nil⟩
  | cons d rest ih =>
    rw [allBlockIds_cons, List.nodup_append] at hnd
    obtain ⟨hndd, hndrest, hdisj⟩ := hnd
    obtain ⟨ihmem, ihnd⟩ := ih hndrest
    rw [List.flatMap_cons]
    rcases hq : findQ (fun b => b.id = tbid) d.blocks with _ | b
    · have hhead : (match findQ (fun b => b.id = tbid) d.blocks with
          | some b => if 0 < b.current then [b] else []
          | none => ([] : List Block)) = [] := by rw [hq]
      rw [hhead, List.nil_append]
      refine ⟨?_, ihnd⟩
      intro b hb
      rcases ihmem b hb with ⟨d', hd', hbm, hbid⟩
      exact ⟨d', List.mem_cons_of_mem _ hd', hbm, hbid⟩
    · obtain ⟨hbm, hbid⟩ := findQ_some hq
      have hhead : (match findQ (fun b => b.id = tbid) d.blocks with
          | some b => if 0 < b.current then [b] else []
          | none => ([] : List Block)) = if 0 < b.current then [b] else [] := by rw [hq]
      rw [hhead]
      by_cases hc : 0 < b.current
      · rw [if_pos hc]
        constructor
        · intro x hx
          rcases List.mem_append.mp hx with hx1 | hx2
          · have hxb : x = b := List.mem_singleton.mp hx1
            subst hxb
            exact ⟨d, List.mem_cons_self _ _, hbm, hbid⟩
          · rcases ihmem x hx2 with ⟨d', hd', hxm, hxid⟩
            exact ⟨d', List.mem_cons_of_mem _ hd', hxm, hxid⟩
        · rw [List.map_append]
          show ((b.id :: []) ++ _).Nodup
          rw [List.singleton_append, List.nodup_cons]
          refine ⟨?_, ihnd⟩
          intro hmem
          rcases List.mem_map.mp hmem with ⟨x, hxm, hxid⟩
          rcases ihmem x hxm with ⟨d', hd', hxm', hxid'⟩
          apply hdisj (a := b.id)
          · exact List.mem_map_of_mem _ hbm
          · rw [show b.id = x.id from hxid.symm]
            rw [allBlockIds_eq]
            apply List.mem_map_of_mem
            rw [show allBlocks rest = rest.flatMap Debt.blocks from rfl]
            exact List.mem_flatMap.mpr ⟨d', hd', hxm'⟩
      · rw [if_neg hc, List.nil_append]
        refine ⟨?_, ihnd⟩
        intro x hx
        rcases ihmem x hx with ⟨d', hd', hxm, hxid⟩
        exact ⟨d', List.mem_cons_of_mem _ hd', hxm, hxid⟩

theorem selectTargets_valid (debts : List Debt) (tdid : Option String) (strat : Strategy)
    (tbid : Option String) (sids : Option (List String)) (shuffle : List Block → List Block)
    (hWF : LedgerWF debts) (hshuf : ∀ l : List Block, (shuffle l).Perm l) :
    (∀ b ∈ selectTargets debts tdid strat tbid sids shuffle, ∃ d ∈ debts, b ∈ d.blocks)
    ∧ ((selectTargets debts tdid strat tbid sids shuffle).map Block.id).Nodup := by
  have hshufP : ∀ l : List Block,
      (∀ b ∈ l, ∃ d ∈ debts, b ∈ d.blocks) → (l.map Block.id).Nodup →
      (∀ b ∈ shuffle l, ∃ d ∈ debts, b ∈ d.blocks) ∧ ((shuffle l).map Block.id).Nodup :=
    fun l hm hnd => ⟨fun b hb => hm b ((hshuf l).mem_iff.mp hb),
      (((hshuf l).map Block.id).nodup_iff).mpr hnd⟩
  have htgt : ∀ t : String,
      (∀ b ∈ debts.flatMap (fun d =>
          match findQ (fun b => b.id = t) d.blocks with
          | some b => if 0 < b.current then [b] else []
          | none => []), ∃ d ∈ debts, b ∈ d.blocks)
      ∧ ((debts.flatMap (fun d =>
          match findQ (fun b => b.id = t) d.blocks with
          | some b => if 0 < b.current then [b] else []
          | none => [])).map Block.id).Nodup := by
    intro t
    obtain ⟨hm, hnd⟩ := targetedCandidates_valid debts t hWF.2.2
    refine ⟨?_, hnd⟩
    intro b hb
    rcases hm b hb with ⟨d, hd, hbm, _⟩
    exact ⟨d, hd, hbm⟩
  rcases sids with _ | ids
  · cases strat with
    | standard => exact standardTargets_valid debts tdid hWF
    | random =>
      obtain ⟨hm, hnd⟩ := randomCandidates_valid debts tdid hWF
      exact hshufP _ hm hnd
    | targeted =>
      rcases tbid with _ | t
      · exact standardTargets_valid debts tdid hWF
      · exact htgt t
  · by_cases hlen : 0 < ids.length
    · simp only [selectTargets]
      rw [if_pos hlen]
      exact flatMap_filterQ_valid debts (fun b => b.id ∈ ids ∧ 0 < b.current) hWF.2.2
    · simp only [selectTargets]
      rw [if_neg hlen]
      cases strat with
      | standard => exact standardTargets_valid debts tdid hWF
      | random =>
        obtain ⟨hm, hnd⟩ := randomCandidates_valid debts tdid hWF
        exact hshufP _ hm hnd
      | targeted =>
        rcases tbid with _ | t
        · exact standardTargets_valid debts tdid hWF
        · exact htgt t

theorem remainingDebt_eq_principal_current {debts : List Debt} (hWF : LedgerWF debts) :
    remainingDebt debts = sumBy debts (fun d =>
      sumBy d.blocks (fun b => if b.type = BlockType.principal then b.current else 0)) := by
  rw [remainingDebt_eq_sumBy]
  apply sumBy_congr
  intro d hd
  obtain ⟨hbw, hgap, hmax⟩ := hWF.1 d hd
  rw [← hmax, ← hgap, principalMaxSum, principalGap, ← sumBy_sub]
  apply sumBy_congr
  intro b hb
  by_cases ht : b.type = BlockType.principal
  · rw [if_pos ht, if_pos ht, if_pos ht]
    ring
  · rw [if_neg ht, if_neg ht, if_neg ht]
    ring

theorem sumBy_flatMap {α β : Type*} (l : List α) (g : α → List β) (f : β → ℚ) :
    sumBy (l.flatMap g) f = sumBy l (fun a => sumBy (g a) f) := by
  induction l with
  | nil => rfl
  | cons a l ih => rw [List.flatMap_cons, sumBy_append, sumBy_cons, ih]

theorem targets_principal_le_remaining {debts : List Debt} {T : List Block}
    (hWF : LedgerWF debts) (hmem : ∀ b ∈ T, ∃ d ∈ debts, b ∈ d.blocks)
    (hnd : (T.map Block.id).Nodup) :
    sumBy T (fun b => if b.type = BlockType.principal then b.current else 0)
      ≤ remainingDebt debts := by
  rw [remainingDebt_eq_principal_current hWF, ← sumBy_flatMap]
  apply sumBy_subperm_le
  · apply List.Nodup.subperm hnd.of_map
    intro b hb
    rcases hmem b hb with ⟨d, hd, hbm⟩
    exact List.mem_flatMap.mpr ⟨d, hd, hbm⟩
  · intro b hb
    rcases List.mem_flatMap.mp hb with ⟨d, hd, hbm⟩
    by_cases ht : b.type = BlockType.principal
    · rw [if_pos ht]
      exact ((hWF.1 d hd).1 b hbm).1
    · rw [if_neg ht]

/-- C1 (amended): for every payment applied by `makePayment`, with any strategy
and any target hint, the damage dealt (the amount credited to the score, i.e.
the total subtracted from `amountLeft` by the damage loop) is nonnegative,
never exceeds the requested amount, never exceeds the sum of the targeted
blocks' health, and no block's `current` becomes negative; and the damage
dealt equals the requested amount whenever the requested amount is at most the
sum of the targeted PRINCIPAL blocks' health (not the total outstanding active
block value: a payment aimed at few blocks stops when they are destroyed, and
interest write-downs can deplete targeted interest blocks before the loop
reaches them). -/
theorem makePayment_damage_bounds (s : GameState) (amount : ℚ) (tdid : Option String)
    (strat : Strategy) (tbid : Option String) (sids : Option (List String))
    (shuffle : List Block → List Block) (hWF : LedgerWF s.debts) (hA : 0 ≤ amount)
    (hshuf : ∀ l : List Block, (shuffle l).Perm l) :
    0 ≤ (makePayment s amount tdid strat tbid sids shuffle).totalPaidGame - s.totalPaidGame
    ∧ (makePayment s amount tdid strat tbid sids shuffle).totalPaidGame - s.totalPaidGame
        ≤ amount
    ∧ (makePayment s amount tdid strat tbid sids shuffle).totalPaidGame - s.totalPaidGame
        ≤ sumBy (selectTargets s.debts tdid strat tbid sids shuffle) Block.current
    ∧ (∀ d ∈ (makePayment s amount tdid strat tbid sids shuffle).debts, ∀ b ∈ d.blocks,
        0 ≤ b.current)
    ∧ (amount ≤ sumBy (selectTargets s.debts tdid strat tbid sids shuffle)
          (fun b => if b.type = BlockType.principal then b.current else 0) →
        (makePayment s amount tdid strat tbid sids shuffle).totalPaidGame
          - s.totalPaidGame = amount) := by
  obtain ⟨hmem, hndid⟩ := selectTargets_valid s.debts tdid strat tbid sids shuffle hWF hshuf
  have hresolve : ∀ b ∈ selectTargets s.debts tdid strat tbid sids shuffle,
      findBlock? s.debts b.id = some b := by
    intro b hb
    rcases hmem b hb with ⟨d, hd, hbm⟩
    exact findBlock?_of_mem hWF.2.2 hd hbm
  have hTnn : ∀ b ∈ selectTargets s.debts tdid strat tbid sids shuffle, 0 ≤ b.current := by
    intro b hb
    rcases hmem b hb with ⟨d, hd, hbm⟩
    exact ((hWF.1 d hd).1 b hbm).1
  by_cases hg : remainingDebt s.debts ≤ 0
  · have heval : makePayment s amount tdid strat tbid sids shuffle = s := by
      simp only [makePayment]
      rw [if_pos hg]
    rw [heval, sub_self]
    refine ⟨le_refl 0, hA, sumBy_nonneg (fun b hb => hTnn b hb), ?_, ?_⟩
    · intro d hd b hb
      exact ((hWF.1 d hd).1 b hb).1
    · intro hp
      have hbound := targets_principal_le_remaining hWF hmem hndid
      linarith
  · have heval : makePayment s amount tdid strat tbid sids shuffle
        = { debts := (payLoop s.debts amount
              ((selectTargets s.debts tdid strat tbid sids shuffle).map Block.id)).1,
            totalPaidGame := s.totalPaidGame + (amount - (payLoop s.debts amount
              ((selectTargets s.debts tdid strat tbid sids shuffle).map Block.id)).2) } := by
      simp only [makePayment]
      rw [if_neg hg]
    have hdealt : (makePayment s amount tdid strat tbid sids shuffle).totalPaidGame
        - s.totalPaidGame
        = amount - (payLoop s.debts amount
            ((selectTargets s.debts tdid strat tbid sids shuffle).map Block.id)).2 := by
      rw [heval]
      show s.totalPaidGame + (amount - (payLoop s.debts amount
          ((selectTargets s.debts tdid strat tbid sids shuffle).map Block.id)).2)
          - s.totalPaidGame = _
      ring
    obtain ⟨h0, hle, hsum⟩ := payLoop_spent_bounds
      ((selectTargets s.debts tdid strat tbid sids shuffle).map Block.id) s.debts amount
      hWF hA
    have hsumT : sumBy ((selectTargets s.debts tdid strat tbid sids shuffle).map Block.id)
        (fun t => currentOf s.debts t)
        = sumBy (selectTargets s.debts tdid strat tbid sids shuffle) Block.current := by
      rw [sumBy_map]
      apply sumBy_congr
      intro b hb
      simp only [currentOf]
      rw [hresolve b hb]
    rw [hdealt]
    refine ⟨by linarith, by linarith, ?_, ?_, ?_⟩
    · rw [← hsumT]
      exact hsum
    · intro d hd b hb
      have hWFout := payLoop_LedgerWF
        ((selectTargets s.debts tdid strat tbid sids shuffle).map Block.id) s.debts amount hWF
      rw [heval] at hd
      exact ((hWFout.1 d hd).1 b hb).1
    · intro hp
      have hzero : (payLoop s.debts amount
          ((selectTargets s.debts tdid strat tbid sids shuffle).map Block.id)).2 = 0 := by
        apply payLoop_complete _ _ _ hWF hA hndid
        · intro t ht hnone
          rcases List.mem_map.mp ht with ⟨b, hb, hbid⟩
          rw [← hbid, hresolve b hb] at hnone
          exact Option.noConfusion hnone
        · have hconv : sumBy ((selectTargets s.debts tdid strat tbid sids shuffle).map
              Block.id) (fun t => pCurrentOf s.debts t)
              = sumBy (selectTargets s.debts tdid strat tbid sids shuffle)
                (fun b => if b.type = BlockType.principal then b.current else 0) := by
            rw [sumBy_map]
            apply sumBy_congr
            intro b hb
            simp only [pCurrentOf]
            rw [hresolve b hb]
          rw [hconv]
          exact hp
      rw [hzero, sub_zero]

def wBA : Block :=
  { id := "a-0", debtId := "a", current := 100, max := 100, color := "c",
    type := BlockType.principal }

def wBB : Block :=
  { id := "b-0", debtId := "b", current := 100, max := 100, color := "c",
    type := BlockType.principal }

def wDA : Debt :=
  { id := "a", name := "n", amount := 100, paid := 0, interestRate := 0,
    color := "c", blocks := [wBA] }

def wDB : Debt :=
  { id := "b", name := "m", amount := 100, paid := 0, interestRate := 0,
    color := "c", blocks := [wBB] }

/-- Counterexample to the claimed completeness clause: two zero-rate debts of
one 100-point principal block each (total outstanding active block value 200),
a targeted payment of 150 at block "a-0" deals only 100 damage although
150 ≤ 200. -/
theorem makePayment_shortfall_counterexample :
    sumBy (filterQ (fun b => 0 < b.current) (allBlocks [wDA, wDB])) Block.current = 200
    ∧ (150 : ℚ) ≤ 200
    ∧ (makePayment ⟨[wDA, wDB], 0⟩ 150 none Strategy.targeted (some "a-0") none
        (fun l => l)).totalPaidGame - (0 : ℚ) = 100
    ∧ ¬ ((makePayment ⟨[wDA, wDB], 0⟩ 150 none Strategy.targeted (some "a-0") none
        (fun l => l)).totalPaidGame - (0 : ℚ) = 150) := by
  have houts : sumBy (filterQ (fun b => 0 < b.current) (allBlocks [wDA, wDB]))
      Block.current = 200 := by
    simp [allBlocks, filterQ, sumBy, wDA, wDB, wBA, wBB,
      show (0:ℚ) < 100 from by norm_num,
      show (100:ℚ) + (100 + 0) = 200 from by norm_num,
      show (100:ℚ) + 100 = 200 from by norm_num]
  have hrun : (makePayment ⟨[wDA, wDB], 0⟩ 150 none Strategy.targeted (some "a-0") none
      (fun l => l)).totalPaidGame = 100 := by
    simp [makePayment, remainingDebt, totalDebt, totalPaid, sumBy, selectTargets,
      findQ, payLoop, payStep, findBlock?, updateBlock, updateBlockInList, updateDebt,
      creditPrincipal, wDA, wDB, wBA, wBB,
      show (0:ℚ) < 100 from by norm_num,
      show ¬((100 + (100 + 0) - (0 + (0 + 0)) : ℚ) ≤ 0) from by norm_num,
      show ¬((100:ℚ) ≤ 0) from by norm_num,
      show ¬((200:ℚ) ≤ 0) from by norm_num,
      show (100:ℚ) + 100 = 200 from by norm_num,
      show ¬((150:ℚ) ≤ 0) from by norm_num,
      show min (100:ℚ) 150 = 100 from by norm_num,
      show (100:ℚ) - 100 = 0 from by norm_num,
      show (150:ℚ) - 100 = 50 from by norm_num,
      show (100:ℚ) * (0 / 100) = 0 from by norm_num,
      show ¬((0:ℚ) < 0) from by norm_num,
      show ¬((50:ℚ) ≤ 0) from by norm_num,
      show (0:ℚ) + (150 - 50) = 100 from by norm_num]
  refine ⟨houts, by norm_num, ?_, ?_⟩
  · rw [hrun]
    norm_num
  · rw [hrun]
    norm_num

/-- Witness for the amended payment-bounds theorem at a concrete input. -/
theorem makePayment_damage_bounds_witness :
    LedgerWF ([] : List Debt) ∧ (0 : ℚ) ≤ 50
    ∧ (∀ l : List Block, ((fun l => l) l).Perm l)
    ∧ (0 ≤ (makePayment ⟨[], 0⟩ 50 none Strategy.standard none none
          (fun l => l)).totalPaidGame - (⟨[], 0⟩ : GameState).totalPaidGame
      ∧ (makePayment ⟨[], 0⟩ 50 none Strategy.standard none none
          (fun l => l)).totalPaidGame - (⟨[], 0⟩ : GameState).totalPaidGame ≤ 50
      ∧ (makePayment ⟨[], 0⟩ 50 none Strategy.standard none none
          (fun l => l)).totalPaidGame - (⟨[], 0⟩ : GameState).totalPaidGame
          ≤ sumBy (selectTargets (⟨[], 0⟩ : GameState).debts none Strategy.standard none none
              (fun l => l)) Block.current
      ∧ (∀ d ∈ (makePayment ⟨[], 0⟩ 50 none Strategy.standard none none
            (fun l => l)).debts, ∀ b ∈ d.blocks, 0 ≤ b.current)
      ∧ ((50 : ℚ) ≤ sumBy (selectTargets (⟨[], 0⟩ : GameState).debts none Strategy.standard
            none none (fun l => l))
            (fun b => if b.type = BlockType.principal then b.current else 0) →
          (makePayment ⟨[], 0⟩ 50 none Strategy.standard none none
            (fun l => l)).totalPaidGame - (⟨[], 0⟩ : GameState).totalPaidGame = 50)) := by
  have hWF : LedgerWF ([] : List Debt) :=
    ⟨fun d hd => absurd hd (List.not_mem_nil d), List.nodup_nil, List.nodup_nil⟩
  have hA : (0 : ℚ) ≤ 50 := by norm_num
  have hshuf : ∀ l : List Block, ((fun l => l) l).Perm l := fun l => List.Perm.refl l
  exact ⟨hWF, hA, hshuf, makePayment_damage_bounds ⟨[], 0⟩ 50 none Strategy.standard none
    none (fun l => l) hWF hA hshuf⟩
